import Mathlib

/-!
Verification of the real-time engine-analysis streaming pipeline of the
`mainline` chess web application.

The development shallowly embeds four TypeScript components:

* the SSE frame decoder and authenticated stream transport
  (`src/frontend/src/features/chess/sse.ts`);
* the analysis-arrow state machine
  (`src/frontend/src/features/chess/analysis-arrow-state.ts`);
* the candidate Stockfish line merger and the commentary extractor
  (`src/frontend/src/routes/_layout/analysis.tsx`).

TypeScript strings are modelled as `List Char` (or Lean `String` where no
character-level recursion is needed), JavaScript numbers that hold integers
as `Int`, nullable / optional values as `Option`, and the asynchronous
transport as an explicit labelled transition system whose steps are the
atomic synchronous segments between `await` points.
-/

set_option maxHeartbeats 1000000
set_option maxRecDepth 100000

namespace Mainline

abbrev Chars := List Char

/-! ## Frame decoder (`sse.ts`)

`emitBufferedEvents` normalizes CRLF, repeatedly splits the buffer at the
first blank line (`"\n\n"`), parses each block with `parseSseEventBlock`
and returns the unconsumed remainder.  The `onEvent` callback is modelled
by returning the list of emitted frames. -/

/-- One decoded SSE frame: `(eventName, eventData)`. -/
structure SseFrame where
  eventName : Chars
  eventData : Chars
deriving DecidableEq, Repr

/-- Single left-to-right pass of `buffer.replace(/\r\n/g, "\n")`. -/
def normalizeCrLf : Chars → Chars
  | [] => []
  | [c] => [c]
  | c :: d :: rest =>
    if c = '\r' ∧ d = '\n' then '\n' :: normalizeCrLf rest
    else c :: normalizeCrLf (d :: rest)

/-- JavaScript whitespace as relevant to `String.prototype.trim` on the
ASCII texts handled here. -/
def isJsWs (c : Char) : Bool :=
  c = ' ' || c = '\t' || c = '\r' || c = '\n'

/-- `String.prototype.trim`. -/
def trimChars (cs : Chars) : Chars :=
  ((cs.dropWhile isJsWs).reverse.dropWhile isJsWs).reverse

/-- `block.split("\n")`. -/
def splitLines : Chars → List Chars
  | [] => [[]]
  | '\n' :: rest => [] :: splitLines rest
  | c :: rest =>
    match splitLines rest with
    | [] => [[c]]
    | l :: ls => (c :: l) :: ls

/-- Join a list of lines with `"\n"` (`lines.join("\n")`). -/
def joinNl : List Chars → Chars
  | [] => []
  | [l] => l
  | l :: rest => l ++ '\n' :: joinNl rest

/-- Accumulator for one SSE block scan. -/
structure SseBlockAcc where
  eventName : Chars
  dataLines : List Chars

/-- One iteration of the `for (const line of lines)` loop in
`parseSseEventBlock`. -/
def parseSseLineStep (acc : SseBlockAcc) (line : Chars) : SseBlockAcc :=
  if line = [] then acc
  else if line.head? = some ':' then acc
  else if ("event:".toList).isPrefixOf line then
    let v := trimChars (line.drop 6)
    { acc with eventName := if v = [] then "message".toList else v }
  else if ("data:".toList).isPrefixOf line then
    let v := line.drop 5
    let v := if v.head? = some ' ' then v.tail else v
    { acc with dataLines := acc.dataLines ++ [v] }
  else acc

/-- `parseSseEventBlock(block)`. -/
def parseSseEventBlock (block : Chars) : Option SseFrame :=
  let acc := (splitLines block).foldl parseSseLineStep ⟨"message".toList, []⟩
  if acc.dataLines = [] then none
  else some ⟨acc.eventName, joinNl acc.dataLines⟩

/-- `working.indexOf("\n\n")`, returning the block before the first
delimiter and the text after it. -/
def splitOnDelim : Chars → Option (Chars × Chars)
  | [] => none
  | c :: rest =>
    if c = '\n' ∧ rest.head? = some '\n' then some ([], rest.tail)
    else
      match splitOnDelim rest with
      | none => none
      | some (pre, post) => some (c :: pre, post)

theorem splitOnDelim_decompose {w pre post : Chars}
    (h : splitOnDelim w = some (pre, post)) :
    w = pre ++ '\n' :: '\n' :: post := by
  induction w generalizing pre post with
  | nil => simp [splitOnDelim] at h
  | cons c rest ih =>
    simp only [splitOnDelim] at h
    split at h
    · rename_i hc
      obtain ⟨hc1, hc2⟩ := hc
      match rest, hc2 with
      | _ :: t, hc2 =>
        simp at hc2
        simp at h
        obtain ⟨h1, h2⟩ := h
        subst h1 h2 hc1 hc2
        simp
    · rename_i hc
      match hsp : splitOnDelim rest with
      | none => rw [hsp] at h; simp at h
      | some (pre', post') =>
        rw [hsp] at h
        simp at h
        obtain ⟨h1, h2⟩ := h
        subst h2
        have := ih hsp
        rw [← h1]
        simp [this]

theorem splitOnDelim_post_length {w pre post : Chars}
    (h : splitOnDelim w = some (pre, post)) : post.length < w.length := by
  have := splitOnDelim_decompose h
  subst this
  simp
  omega

/-- The `while (delimiterIndex !== -1)` loop of `emitBufferedEvents`,
fuel-recursive: every iteration removes at least two characters, so any
fuel above the buffer length is never exhausted. -/
def emitLoopF : Nat → Chars → List SseFrame × Chars
  | 0, working => ([], working)
  | fuel + 1, working =>
    match splitOnDelim working with
    | none => ([], working)
    | some (pre, post) =>
      let rest := emitLoopF fuel post
      ((parseSseEventBlock pre).toList ++ rest.1, rest.2)

/-- The loop of `emitBufferedEvents` on the already-normalized buffer:
returns the emitted frames and the final remainder. -/
def emitLoop (working : Chars) : List SseFrame × Chars :=
  emitLoopF (working.length + 1) working

/-- `emitBufferedEvents(buffer, onEvent)`: frames are collected in order
instead of being passed to a callback. -/
def emitBufferedEvents (buffer : Chars) : List SseFrame × Chars :=
  emitLoop (normalizeCrLf buffer)

/-- Feeding a sequence of chunks through the decoder: each call receives
the previous remainder concatenated with the next chunk, exactly as the
transport read loop does (`buffer += decoded; buffer = emit(buffer)`). -/
def processChunks : List Chars → Chars → List SseFrame × Chars
  | [], buffer => ([], buffer)
  | c :: rest, buffer =>
    let step := emitBufferedEvents (buffer ++ c)
    let next := processChunks rest step.2
    (step.1 ++ next.1, next.2)

/-- An input text free of carriage returns. -/
def CrFree (cs : Chars) : Prop := '\r' ∉ cs

instance (cs : Chars) : Decidable (CrFree cs) := by
  unfold CrFree; infer_instance

/-! ## Authenticated stream transport (`openAuthenticatedSse` in `sse.ts`)

The handle is a labelled transition system.  One label is either the
user's `close()` call or one atomic resumption of the `run` task: the
synchronous code that executes between two `await` points in `run` is a
single step, reading the `closed` / `controller.signal.aborted` flags as
they stand when the resumption runs.  Callback invocations are recorded
in an observation log. -/

/-- Observable callback invocations of one transport handle. -/
inductive SseCb where
  | opened
  | ev
  | close
  | error
deriving DecidableEq, Repr

/-- Progress of the `run` task: before the `fetch` continuation has run,
inside the read loop, or finished. -/
inductive SsePhase where
  | p0
  | reading
  | done
deriving DecidableEq, Repr

/-- State of one transport handle: the two closure flags, the task
phase, and the log of delivered callbacks. -/
structure SseHandleState where
  closed : Bool
  aborted : Bool
  phase : SsePhase
  log : List SseCb
deriving DecidableEq, Repr

/-- Transition labels.  `fetchOk`/`fetchFail` are the resumption after the
`fetch` (an HTTP error status and a network failure both reach the same
`catch`); `readChunk k` is the resumption after a `reader.read()` that
yielded a chunk whose buffered decode emits `k` frames; `readDone` is a
`{done: true}` read; `readFail` is a rejected read. -/
inductive SseLabel where
  | userClose
  | fetchOk
  | fetchFail
  | readChunk (k : Nat)
  | readDone
  | readFail
deriving DecidableEq, Repr

/-- One transition of the handle.  Labels that cannot occur in the
current phase leave the state unchanged. -/
def sseStep (s : SseHandleState) : SseLabel → SseHandleState
  | .userClose =>
    if s.closed then s
    else { s with closed := true, aborted := true, log := s.log ++ [.close] }
  | .fetchOk =>
    if s.phase = .p0 then
      if s.closed then { s with phase := .done, log := s.log ++ [.opened] }
      else { s with phase := .reading, log := s.log ++ [.opened] }
    else s
  | .fetchFail =>
    if s.phase = .p0 then
      if s.aborted then { s with phase := .done }
      else { s with phase := .done, log := s.log ++ [.error] }
    else s
  | .readChunk k =>
    if s.phase = .reading then
      if s.closed then
        { s with phase := .done, log := s.log ++ List.replicate k .ev }
      else { s with log := s.log ++ List.replicate k .ev }
    else s
  | .readDone =>
    if s.phase = .reading then
      if s.closed then { s with phase := .done }
      else { s with phase := .done, closed := true, log := s.log ++ [.close] }
    else s
  | .readFail =>
    if s.phase = .reading then
      if s.aborted then { s with phase := .done }
      else { s with phase := .done, log := s.log ++ [.error] }
    else s

/-- Fresh handle as returned by `openAuthenticatedSse`. -/
def sseInit : SseHandleState := ⟨false, false, .p0, []⟩

/-- Run a whole schedule of labels. -/
def sseRun (trace : List SseLabel) : SseHandleState :=
  trace.foldl sseStep sseInit

/-! ## Stream event payloads (`types.ts`) -/

/-- `StockfishPVLine.arrow`. -/
structure StockfishArrow where
  uci : String
  from_square : String
  to_square : String
  color_slot : Int
deriving DecidableEq, Repr

/-- `StockfishPVLine`. -/
structure StockfishPVLine where
  rank : Int
  san : Option String
  cp : Option Int
  mate : Option Int
  arrow : StockfishArrow
  pv : List String
deriving DecidableEq, Repr

/-- `StockfishDepthUpdateEvent` (without its `type` tag, which becomes the
constructor of `StockfishStreamEvent`). -/
structure StockfishDepthUpdateEvent where
  analysis_id : String
  fen : String
  side_to_move : String
  depth : Int
  multipv : Int
  bestmove_uci : Option String
  lines : List StockfishPVLine
  generated_at : String
deriving DecidableEq, Repr

/-- `StockfishAnalysisCompleteEvent`. -/
structure StockfishAnalysisCompleteEvent where
  analysis_id : String
  fen : String
  final_depth : Int
  bestmove_uci : Option String
  lines : List StockfishPVLine
  reason : String
  generated_at : String
deriving DecidableEq, Repr

/-- `StockfishAnalysisErrorEvent`. -/
structure StockfishAnalysisErrorEvent where
  analysis_id : Option String
  code : String
  message : String
  retryable : Bool
  generated_at : String
deriving DecidableEq, Repr

/-- `StockfishStreamEvent`, discriminated by its `type` field. -/
inductive StockfishStreamEvent where
  | depth_update (e : StockfishDepthUpdateEvent)
  | analysis_complete (e : StockfishAnalysisCompleteEvent)
  | analysis_error (e : StockfishAnalysisErrorEvent)
deriving DecidableEq, Repr

/-! ## Analysis-arrow state machine (`analysis-arrow-state.ts`) -/

/-- `AnalysisBoardArrow`. -/
structure AnalysisBoardArrow where
  from_square : String
  to_square : String
  color_slot : Int
  rank : Int
  uci : String
  cp : Option Int
  mate : Option Int
deriving DecidableEq, Repr

/-- `AnalysisArrowSession`. -/
structure AnalysisArrowSession where
  streamToken : Int
  targetFen : String
  analysisId : Option String
  minDepth : Int
  warmupDepthCount : Int
  warmupTopN : Int
  steadyTopN : Int
deriving DecidableEq, Repr

/-- `AnalysisArrowSnapshot` (the `source: "engine"` literal field is
constant and omitted). -/
structure AnalysisArrowSnapshot where
  targetFen : String
  analysisId : String
  depth : Int
  arrows : List AnalysisBoardArrow
  updatedAtMs : Int
deriving DecidableEq, Repr

/-- `AnalysisStreamStatus`. -/
inductive AnalysisStreamStatus where
  | idle
  | streaming
  | closed
deriving DecidableEq, Repr

/-- `AnalysisArrowState`. -/
structure AnalysisArrowState where
  status : AnalysisStreamStatus
  session : Option AnalysisArrowSession
  snapshot : Option AnalysisArrowSnapshot
  events : List StockfishStreamEvent
  lastError : Option String
deriving DecidableEq, Repr

/-- `AnalysisArrowAction`. -/
inductive AnalysisArrowAction where
  | start_session (streamToken : Int) (targetFen : String) (minDepth : Int)
      (warmupDepthCount : Int) (warmupTopN : Int) (steadyTopN : Int)
  | stop_session (streamToken : Int) (nextStatus : AnalysisStreamStatus)
  | reset_for_board_change
  | local_error (message : String)
  | ingest_stream_event (streamToken : Int) (payload : StockfishStreamEvent)
deriving DecidableEq, Repr

/-- `mapLineToBoardArrow`. -/
def mapLineToBoardArrow (line : StockfishPVLine) : AnalysisBoardArrow :=
  { from_square := line.arrow.from_square
    to_square := line.arrow.to_square
    color_slot := line.arrow.color_slot
    rank := line.rank
    uci := line.arrow.uci
    cp := line.cp
    mate := line.mate }

/-- `trimLinesForStage` (the `options` object is flattened into two
arguments). -/
def trimLinesForStage (lines : List StockfishPVLine) (depth : Int)
    (session : AnalysisArrowSession) : List StockfishPVLine :=
  let warmupDepthLimit := session.minDepth + session.warmupDepthCount - 1
  let topN := if depth ≤ warmupDepthLimit then session.warmupTopN
    else session.steadyTopN
  lines.take (max 1 topN).toNat

/-- `createInitialAnalysisArrowState`. -/
def createInitialAnalysisArrowState : AnalysisArrowState :=
  { status := .idle, session := none, snapshot := none, events := [],
    lastError := none }

/-- `analysisArrowReducer`.  `now` stands for the `Date.now()` call inside
the `ingest_stream_event` branch. -/
def analysisArrowReducer (now : Int) (state : AnalysisArrowState)
    (action : AnalysisArrowAction) : AnalysisArrowState :=
  match action with
  | .start_session streamToken targetFen minDepth warmupDepthCount
      warmupTopN steadyTopN =>
    { status := .streaming
      session := some
        { streamToken := streamToken
          targetFen := targetFen
          analysisId := none
          minDepth := minDepth
          warmupDepthCount := warmupDepthCount
          warmupTopN := warmupTopN
          steadyTopN := steadyTopN }
      snapshot := none
      events := []
      lastError := none }
  | .stop_session streamToken nextStatus =>
    match state.session with
    | none => state
    | some session =>
      if session.streamToken ≠ streamToken then state
      else { state with status := nextStatus, session := none }
  | .reset_for_board_change => createInitialAnalysisArrowState
  | .local_error message =>
    { status := .closed, session := none, snapshot := none, events := [],
      lastError := some message }
  | .ingest_stream_event streamToken payload =>
    match state.session with
    | none => state
    | some session =>
      if session.streamToken ≠ streamToken then state
      else
        match payload with
        | .analysis_error e =>
          { status := .closed, session := none, snapshot := none,
            events := state.events ++ [payload],
            lastError := some e.message }
        | .depth_update e =>
          if e.fen ≠ session.targetFen then state
          else if session.analysisId ≠ none ∧
              some e.analysis_id ≠ session.analysisId then state
          else
            let analysisId := session.analysisId.getD e.analysis_id
            let depth := e.depth
            let trimmedLines := trimLinesForStage e.lines depth session
            let trimmedPayload : StockfishStreamEvent := .depth_update
              { e with lines := trimmedLines,
                       multipv := Int.ofNat trimmedLines.length }
            let snapshot : AnalysisArrowSnapshot :=
              { targetFen := e.fen
                analysisId := analysisId
                depth := depth
                arrows := trimmedLines.map mapLineToBoardArrow
                updatedAtMs := now }
            { status := .streaming
              session := some { session with analysisId := some analysisId }
              snapshot := some snapshot
              events := state.events ++ [trimmedPayload]
              lastError := none }
        | .analysis_complete e =>
          if e.fen ≠ session.targetFen then state
          else if session.analysisId ≠ none ∧
              some e.analysis_id ≠ session.analysisId then state
          else
            let analysisId := session.analysisId.getD e.analysis_id
            let depth := e.final_depth
            let trimmedLines := trimLinesForStage e.lines depth session
            let trimmedPayload : StockfishStreamEvent := .analysis_complete
              { e with lines := trimmedLines }
            let snapshot : AnalysisArrowSnapshot :=
              { targetFen := e.fen
                analysisId := analysisId
                depth := depth
                arrows := trimmedLines.map mapLineToBoardArrow
                updatedAtMs := now }
            { status := .closed
              session := none
              snapshot := some snapshot
              events := state.events ++ [trimmedPayload]
              lastError := none }

/-- A timestamped action: the clock value the reducer would observe via
`Date.now()` when processing it. -/
abbrev TimedAction := Int × AnalysisArrowAction

/-- Run a list of timestamped actions through the reducer. -/
def runActions (s : AnalysisArrowState) (tas : List TimedAction) :
    AnalysisArrowState :=
  tas.foldl (fun st ta => analysisArrowReducer ta.1 st ta.2) s

/-- Whether an action is a `start_session` carrying a given token. -/
def isStartWithToken (tok : Int) : AnalysisArrowAction → Prop
  | .start_session streamToken _ _ _ _ _ => streamToken = tok
  | _ => False

instance (tok : Int) (a : AnalysisArrowAction) :
    Decidable (isStartWithToken tok a) := by
  cases a <;> simp [isStartWithToken] <;> infer_instance

/-! ## Candidate line merger (`mergeCandidateStockfishLines` in
`analysis.tsx`)

The JavaScript `Map` is modelled as an association list with `Map`
semantics: `set` on a present key replaces the value in place (keeping the
original insertion position), otherwise appends; `values()` iterates in
insertion order.  `Array.prototype.sort` with the comparator
`b.depth - a.depth || a.rank - b.rank` is a stable sort, modelled as a
stable insertion sort over the strict precedes relation of that
comparator. -/

/-- `CandidateStockfishLine`. -/
structure CandidateStockfishLine where
  branchUci : String
  firstMoveSan : Option String
  depth : Int
  rank : Int
  evalLabel : String
  pvUci : List String
deriving DecidableEq, Repr

/-- A depth-like event, as the merger consumes it: either variant of the
union accepted by `mergeCandidateStockfishLines`. -/
inductive DepthLikeEvent where
  | depth_update (e : StockfishDepthUpdateEvent)
  | analysis_complete (e : StockfishAnalysisCompleteEvent)
deriving DecidableEq, Repr

/-- `stockfishDepthOfEvent`. -/
def stockfishDepthOfEvent : DepthLikeEvent → Int
  | .depth_update e => e.depth
  | .analysis_complete e => e.final_depth

/-- Lines carried by a depth-like event. -/
def depthLikeLines : DepthLikeEvent → List StockfishPVLine
  | .depth_update e => e.lines
  | .analysis_complete e => e.lines

/-- Association list with JavaScript `Map` insertion-order semantics. -/
abbrev CandMap := List (String × CandidateStockfishLine)

/-- `Map.prototype.set`. -/
def candSet : CandMap → String → CandidateStockfishLine → CandMap
  | [], k, v => [(k, v)]
  | (k', v') :: rest, k, v =>
    if k' = k then (k, v) :: rest else (k', v') :: candSet rest k v

/-- `Map.prototype.get`. -/
def candGet : CandMap → String → Option CandidateStockfishLine
  | [], _ => none
  | (k', v') :: rest, k => if k' = k then some v' else candGet rest k

/-- `new Map(current.map((line) => [line.branchUci, line]))`. -/
def candMapOfCurrent (current : List CandidateStockfishLine) : CandMap :=
  current.foldl (fun m line => candSet m line.branchUci line) []

/-- `formatEvalLabel(cp, mate)`.  For an integer centipawn value `cp`,
`(cp / 100).toFixed(2)` prints the exact two-decimal expansion of
`cp / 100`, reproduced here with integer arithmetic. -/
def formatEvalLabel (cp : Option Int) (mate : Option Int) : String :=
  match mate with
  | some m => "M" ++ (if m > 0 then "+" else "") ++ toString m
  | none =>
    match cp with
    | some c =>
      let sign := if c > 0 then "+" else if c < 0 then "-" else ""
      let n := c.natAbs
      let fracDigits :=
        if n % 100 < 10 then "0" ++ toString (n % 100) else toString (n % 100)
      sign ++ toString (n / 100) ++ "." ++ fracDigits
    | none => "n/a"

/-- `String.prototype.toLowerCase` (character-wise, as on the ASCII move
strings handled here). -/
def jsToLower (s : String) : String := ⟨s.data.map Char.toLower⟩

/-- The branch key of one reported line:
`(line.pv[0] ?? line.arrow.uci ?? "").toLowerCase()`. -/
def branchUciOfLine (line : StockfishPVLine) : String :=
  jsToLower (line.pv.headD line.arrow.uci)

/-- The `candidate` record built for one reported line: branch key,
first-move label, depth/rank, evaluation label and the lowercased
principal variation capped at 8 moves. -/
def candidateOfLine (depth : Int) (line : StockfishPVLine) :
    CandidateStockfishLine :=
  { branchUci := branchUciOfLine line
    firstMoveSan := line.san
    depth := depth
    rank := line.rank
    evalLabel := formatEvalLabel line.cp line.mate
    pvUci := ((if line.pv.length > 0 then line.pv
      else [line.arrow.uci]).map jsToLower).take 8 }

/-- One iteration of the `for (const line of payload.lines)` loop. -/
def mergeLineStep (depth : Int) (m : CandMap) (line : StockfishPVLine) :
    CandMap :=
  if branchUciOfLine line = "" then m
  else
    match candGet m (branchUciOfLine line) with
    | none => candSet m (branchUciOfLine line) (candidateOfLine depth line)
    | some existing =>
      if depth > existing.depth ∨
          (depth = existing.depth ∧ line.rank < existing.rank) then
        candSet m (branchUciOfLine line) (candidateOfLine depth line)
      else m

/-- `a` strictly precedes `b` under the comparator
`(a, b) => b.depth - a.depth || a.rank - b.rank`. -/
def candPrecedes (a b : CandidateStockfishLine) : Prop :=
  a.depth > b.depth ∨ (a.depth = b.depth ∧ a.rank < b.rank)

instance (a b : CandidateStockfishLine) : Decidable (candPrecedes a b) := by
  unfold candPrecedes; infer_instance

/-- Stable insertion for the comparator: an element being inserted came
later in the original array, so it is placed after every element that
ties with it. -/
def candInsert (x : CandidateStockfishLine) :
    List CandidateStockfishLine → List CandidateStockfishLine
  | [] => [x]
  | y :: ys => if candPrecedes y x then y :: candInsert x ys else x :: y :: ys

/-- Stable sort by descending depth, ties by ascending rank: the unique
result of the (stable) JavaScript `Array.prototype.sort` under a
consistent comparator. -/
def candSort (l : List CandidateStockfishLine) : List CandidateStockfishLine :=
  l.foldr candInsert []

/-- `mergeCandidateStockfishLines(current, payload)`. -/
def mergeCandidateStockfishLines (current : List CandidateStockfishLine)
    (payload : DepthLikeEvent) : List CandidateStockfishLine :=
  (candSort (((depthLikeLines payload).foldl
    (mergeLineStep (stockfishDepthOfEvent payload))
    (candMapOfCurrent current)).map Prod.snd)).take 10

/-! ## JSON values and `JSON.parse` (for the commentary extractor)

`parseCommentaryStructuredFromText` calls `JSON.parse` on each candidate
substring.  The parser below is a recursive-descent embedding of the JSON
grammar as `JSON.parse` accepts it (strict: no trailing commas, string
keys only, `\uXXXX` escapes, no leading zeros).  Numeric values are kept
as their raw lexemes: the extractor only ever inspects strings, arrays
and objects.  Recursion is by fuel; `2 * length + 2` units suffice since
every two units of descent consume at least one input character. -/

/-- A parsed JSON value. -/
inductive JValue where
  | null
  | bool (b : Bool)
  | num (raw : Chars)
  | str (s : Chars)
  | arr (xs : List JValue)
  | obj (flds : List (Chars × JValue))

/-- JSON insignificant whitespace. -/
def isJsonWs (c : Char) : Bool :=
  c = ' ' || c = '\t' || c = '\n' || c = '\r'

/-- Skip JSON whitespace. -/
def skipWs (s : Chars) : Chars := s.dropWhile isJsonWs

/-- ASCII decimal digit. -/
def isDigitChar (c : Char) : Bool := '0' ≤ c && c ≤ '9'

/-- Value of a hex digit. -/
def hexVal (c : Char) : Option Nat :=
  if '0' ≤ c ∧ c ≤ '9' then some (c.toNat - '0'.toNat)
  else if 'a' ≤ c ∧ c ≤ 'f' then some (c.toNat - 'a'.toNat + 10)
  else if 'A' ≤ c ∧ c ≤ 'F' then some (c.toNat - 'A'.toNat + 10)
  else none

/-- Single-character string escapes. -/
def escChar (c : Char) : Option Char :=
  if c = '"' then some '"'
  else if c = '\\' then some '\\'
  else if c = '/' then some '/'
  else if c = 'b' then some (Char.ofNat 8)
  else if c = 'f' then some (Char.ofNat 12)
  else if c = 'n' then some '\n'
  else if c = 'r' then some '\r'
  else if c = 't' then some '\t'
  else none

/-- Parse the body of a JSON string after the opening quote; returns the
decoded content and the input after the closing quote. -/
def parseJString : Chars → Option (Chars × Chars)
  | '"' :: r => some ([], r)
  | '\\' :: 'u' :: a :: b :: c :: d :: r =>
    match hexVal a, hexVal b, hexVal c, hexVal d with
    | some ha, some hb, some hc, some hd =>
      (parseJString r).map fun p =>
        (Char.ofNat (((ha * 16 + hb) * 16 + hc) * 16 + hd) :: p.1, p.2)
    | _, _, _, _ => none
  | '\\' :: e :: r =>
    match escChar e with
    | some c => (parseJString r).map fun p => (c :: p.1, p.2)
    | none => none
  | c :: r =>
    if c.toNat < 32 then none
    else (parseJString r).map fun p => (c :: p.1, p.2)
  | [] => none

/-- Longest digit run. -/
def takeDigits (s : Chars) : Chars × Chars :=
  (s.takeWhile isDigitChar, s.dropWhile isDigitChar)

/-- JSON integer part: `0` or a nonzero digit followed by digits. -/
def parseIntPart : Chars → Option (Chars × Chars)
  | '0' :: r => some (['0'], r)
  | c :: r =>
    if isDigitChar c then
      let p := takeDigits r
      some (c :: p.1, p.2)
    else none
  | [] => none

/-- Optional fraction part.  An ill-formed fraction is left unconsumed;
the character then fails the surrounding parse exactly as `JSON.parse`
fails on it. -/
def parseFracPart (s : Chars) : Chars × Chars :=
  match s with
  | '.' :: r =>
    let p := takeDigits r
    if p.1 = [] then ([], s) else ('.' :: p.1, p.2)
  | _ => ([], s)

/-- Optional exponent sign. -/
def splitSign (r : Chars) : Chars × Chars :=
  match r with
  | s' :: r' => if s' = '+' ∨ s' = '-' then ([s'], r') else ([], r)
  | [] => ([], r)

/-- Optional exponent part, same convention as `parseFracPart`. -/
def parseExpPart (s : Chars) : Chars × Chars :=
  match s with
  | c :: r =>
    if c = 'e' ∨ c = 'E' then
      let p := splitSign r
      let q := takeDigits p.2
      if q.1 = [] then ([], s) else (c :: (p.1 ++ q.1), q.2)
    else ([], s)
  | [] => ([], s)

/-- Optional leading minus sign. -/
def splitNeg (s : Chars) : Chars × Chars :=
  match s with
  | '-' :: r => (['-'], r)
  | _ => ([], s)

/-- JSON number lexeme. -/
def parseNumber (s : Chars) : Option (Chars × Chars) :=
  match parseIntPart (splitNeg s).2 with
  | none => none
  | some (ip, s2) =>
    some ((splitNeg s).1 ++ ip ++ (parseFracPart s2).1 ++
        (parseExpPart (parseFracPart s2).2).1,
      (parseExpPart (parseFracPart s2).2).2)

mutual

/-- Parse one JSON value (after skipping leading whitespace). -/
def parseValue : Nat → Chars → Option (JValue × Chars)
  | 0, _ => none
  | fuel + 1, s =>
    match skipWs s with
    | [] => none
    | '{' :: r =>
      match skipWs r with
      | '}' :: r2 => some (.obj [], r2)
      | _ => (parseMembers fuel (skipWs r)).map fun p => (.obj p.1, p.2)
    | '[' :: r =>
      match skipWs r with
      | ']' :: r2 => some (.arr [], r2)
      | _ => (parseElems fuel r).map fun p => (.arr p.1, p.2)
    | '"' :: r => (parseJString r).map fun p => (.str p.1, p.2)
    | 't' :: r =>
      if ("rue".toList).isPrefixOf r then some (.bool true, r.drop 3) else none
    | 'f' :: r =>
      if ("alse".toList).isPrefixOf r then some (.bool false, r.drop 4)
      else none
    | 'n' :: r =>
      if ("ull".toList).isPrefixOf r then some (.null, r.drop 3) else none
    | c :: r =>
      if c = '-' ∨ isDigitChar c then
        (parseNumber (c :: r)).map fun p => (.num p.1, p.2)
      else none

/-- Parse `"key": value (, ...)* }`, input starting at the first key. -/
def parseMembers : Nat → Chars → Option (List (Chars × JValue) × Chars)
  | 0, _ => none
  | fuel + 1, s =>
    match s with
    | '"' :: r =>
      match parseJString r with
      | none => none
      | some (key, r1) =>
        match skipWs r1 with
        | ':' :: r2 =>
          match parseValue fuel r2 with
          | none => none
          | some (v, r3) =>
            match skipWs r3 with
            | ',' :: r4 =>
              (parseMembers fuel (skipWs r4)).map fun p =>
                ((key, v) :: p.1, p.2)
            | '}' :: r4 => some ([(key, v)], r4)
            | _ => none
        | _ => none
    | _ => none

/-- Parse `value (, value)* ]`. -/
def parseElems : Nat → Chars → Option (List JValue × Chars)
  | 0, _ => none
  | fuel + 1, s =>
    match parseValue fuel s with
    | none => none
    | some (v, r) =>
      match skipWs r with
      | ',' :: r2 => (parseElems fuel r2).map fun p => (v :: p.1, p.2)
      | ']' :: r2 => some ([v], r2)
      | _ => none

end

/-- `JSON.parse`: a full-input parse, `none` standing for a thrown
`SyntaxError`. -/
def jsonParse (s : Chars) : Option JValue :=
  match parseValue (2 * s.length + 2) s with
  | some (v, rest) => if skipWs rest = [] then some v else none
  | none => none

/-! ## Commentary extractor (`analysis.tsx`) -/

/-- One `concrete_ideas` entry of a `CommentaryStructuredPlan`. -/
structure CommentaryIdea where
  title : Chars
  description : Chars
  selected_line_id : Chars
  playback_pv_uci : List Chars
deriving DecidableEq, Repr

/-- `CommentaryStructuredPlan` (`types.ts`). -/
structure CommentaryStructuredPlan where
  position_plan_title : Chars
  advantage_side : Chars
  advantage_summary : Chars
  best_move_san : Chars
  best_move_reason : Chars
  danger_to_watch : Chars
  white_plan : Chars × Chars
  black_plan : Chars × Chars
  concrete_ideas : List CommentaryIdea
deriving DecidableEq, Repr

/-- Occurrence of `pat` as a contiguous subsequence. -/
def containsSeq (pat : Chars) : Chars → Bool
  | [] => decide (pat = [])
  | c :: rest => pat.isPrefixOf (c :: rest) || containsSeq pat rest

/-- Fuel-recursive core of `replaceAllDel`; every step consumes at least
one character. -/
def replaceAllDelF : Nat → Chars → Chars → Chars
  | 0, _, s => s
  | fuel + 1, pat, s =>
    match s with
    | [] => []
    | c :: rest =>
      if pat ≠ [] ∧ pat.isPrefixOf (c :: rest) then
        replaceAllDelF fuel pat ((c :: rest).drop pat.length)
      else c :: replaceAllDelF fuel pat rest

/-- `s.replace(pat, "")` for a literal global pattern: delete every
non-overlapping occurrence, scanning left to right. -/
def replaceAllDel (pat : Chars) (s : Chars) : Chars :=
  replaceAllDelF (s.length + 1) pat s

/-- `sanitizeCommentaryText(rawText)`. -/
def sanitizeCommentaryText (rawText : Chars) : Chars :=
  let trimmed := trimChars rawText
  if trimmed = [] then rawText
  else if ¬ (("```".toList).isPrefixOf trimmed) then
    trimChars (replaceAllDel ("```".toList)
      (replaceAllDel ("```json".toList) rawText))
  else
    let lines := splitLines trimmed
    if lines.length ≥ 3 ∧ trimChars (lines.getLastD []) = "```".toList then
      trimChars (joinNl (lines.drop 1).dropLast)
    else
      trimChars (replaceAllDel ("```".toList)
        (replaceAllDel ("```json".toList) rawText))

/-- State of the string-and-escape-aware brace scanner
(`extractJsonObjectCandidates`). -/
structure ScanSt where
  depth : Nat
  inStr : Bool
  esc : Bool
deriving DecidableEq, Repr

/-- Initial scanner state. -/
def scanInit : ScanSt := ⟨0, false, false⟩

/-- One character of the brace-depth scan. -/
def scanStep (st : ScanSt) (c : Char) : ScanSt :=
  if st.inStr then
    if st.esc then { st with esc := false }
    else if c = '\\' then { st with esc := true }
    else if c = '"' then { st with inStr := false }
    else st
  else if c = '"' then { st with inStr := true }
  else if c = '{' then { st with depth := st.depth + 1 }
  else if c = '}' ∧ st.depth > 0 then { st with depth := st.depth - 1 }
  else st

/-- Scan a whole text. -/
def scanFold (st : ScanSt) (cs : Chars) : ScanSt := cs.foldl scanStep st

/-- Scanner state plus the candidate substring currently being collected
(`startIndex ≥ 0` in the TypeScript) and the emitted candidates. -/
structure ExtractSt where
  scan : ScanSt
  cur : Option Chars
  acc : List Chars
deriving DecidableEq, Repr

/-- One character of `extractJsonObjectCandidates`. -/
def extractStep (st : ExtractSt) (c : Char) : ExtractSt :=
  let sc := st.scan
  let sc' := scanStep sc c
  if ¬ sc.inStr ∧ c = '{' ∧ sc.depth = 0 then
    { scan := sc', cur := some [c], acc := st.acc }
  else if ¬ sc.inStr ∧ c = '}' ∧ sc.depth > 0 ∧ sc'.depth = 0 then
    match st.cur with
    | some cs =>
      { scan := sc', cur := none, acc := st.acc ++ [trimChars (cs ++ [c])] }
    | none => { scan := sc', cur := none, acc := st.acc }
  else
    { scan := sc', cur := st.cur.map (· ++ [c]), acc := st.acc }

/-- `extractJsonObjectCandidates(text)`. -/
def extractJsonObjectCandidates (text : Chars) : List Chars :=
  (text.foldl extractStep ⟨scanInit, none, []⟩).acc

/-- `normalizeCandidate(candidate)`. -/
def normalizeCandidate (candidate : Chars) : Chars :=
  let trimmed := trimChars candidate
  if (trimmed.take 5).map Char.toLower = "json\n".toList then
    trimChars (trimmed.drop 5)
  else trimmed

/-- JavaScript regex `\s` on the ASCII range. -/
def isRegexWs (c : Char) : Bool :=
  c = ' ' || c = '\t' || c = '\n' || c = '\r' ||
    c = Char.ofNat 11 || c = Char.ofNat 12

/-- Fuel-recursive core of `repairCandidate(candidate)`: delete `,`
followed by whitespace when the next non-whitespace character closes a
brace or bracket (`candidate.replace(/,\s*([}\]])/g, "$1")`). -/
def repairCandidateF : Nat → Chars → Chars
  | 0, s => s
  | fuel + 1, s =>
    match s with
    | [] => []
    | ',' :: rest =>
      match rest.dropWhile isRegexWs with
      | c :: r2 =>
        if c = '}' ∨ c = ']' then c :: repairCandidateF fuel r2
        else ',' :: repairCandidateF fuel rest
      | [] => ',' :: repairCandidateF fuel rest
    | c :: rest => c :: repairCandidateF fuel rest

/-- See the doc comment above; entry point with sufficient fuel. -/
def repairCandidate (s : Chars) : Chars :=
  repairCandidateF (s.length + 1) s

/-- JavaScript object property read (`parsed.key`): with duplicate keys
the later assignment wins; a missing key is `undefined` (`none`). -/
def lookupField (flds : List (Chars × JValue)) (k : Chars) : Option JValue :=
  flds.foldl (fun acc p => if p.1 = k then some p.2 else acc) none

/-- `asText(value)`: non-string values (including `undefined`) give
`null`; strings are trimmed and empty results give `null`. -/
def asTextJ : Option JValue → Option Chars
  | some (.str s) =>
    let t := trimChars s
    if t = [] then none else some t
  | _ => none

/-- Fuel-recursive core of the split on the regex `/\n|;|•|\s-\s/`:
leftmost match first, the single-character alternatives taking precedence
at a given position. -/
def splitBulletsF : Nat → Chars → List Chars
  | 0, s => [s]
  | fuel + 1, s =>
    match s with
    | [] => [[]]
    | c :: rest =>
      if c = '\n' ∨ c = ';' ∨ c = '•' then [] :: splitBulletsF fuel rest
      else if isRegexWs c ∧ rest.head? = some '-' ∧
          rest.tail.head?.any isRegexWs then
        [] :: splitBulletsF fuel rest.tail.tail
      else
        match splitBulletsF fuel rest with
        | [] => [[c]]
        | l :: ls => (c :: l) :: ls

/-- `value.split(/\n|;|•|\s-\s/)` with sufficient fuel. -/
def splitBullets (s : Chars) : List Chars :=
  splitBulletsF (s.length + 1) s

/-- `asPlanBullets(value)`. -/
def asPlanBullets : Option JValue → Option (Chars × Chars)
  | some (.arr xs) =>
    match (xs.filterMap (fun v => asTextJ (some v))).take 2 with
    | [a, b] => some (a, b)
    | _ => none
  | some (.str s) =>
    match (((splitBullets s).map trimChars).filter (· ≠ [])).take 2 with
    | [a, b] => some (a, b)
    | _ => none
  | _ => none

/-- `L${String(i + 1).padStart(2, "0")}`. -/
def padIndexId (i : Nat) : Chars :=
  let d := Nat.toDigits 10 (i + 1)
  'L' :: (if d.length < 2 then '0' :: d else d)

/-- One entry of the `concrete_ideas` mapping inside
`parseCommentaryStructuredFromText`. -/
def parseIdea (i : Nat) (idea : JValue) : Option CommentaryIdea :=
  match idea with
  | .obj flds =>
    let ideaTitle := asTextJ (lookupField flds "title".toList)
    let ideaDescription := asTextJ (lookupField flds "description".toList)
    let selectedLineId :=
      (asTextJ (lookupField flds "selected_line_id".toList)).getD (padIndexId i)
    let playbackRaw := match lookupField flds "playback_pv_uci".toList with
      | some (.arr xs) => xs
      | _ => []
    let playback := (playbackRaw.map fun v =>
      match v with
      | .str s => (trimChars s).map Char.toLower
      | _ => ([] : Chars)).filter (· ≠ [])
    match ideaTitle, ideaDescription with
    | some t, some d =>
      if playback = [] then none
      else some
        { title := t, description := d, selected_line_id := selectedLineId,
          playback_pv_uci := playback }
    | _, _ => none
  | _ => none

/-- Field extraction and validation of one successfully parsed candidate
(the loop body of `parseCommentaryStructuredFromText` after `JSON.parse`;
property access on a non-object — which throws on `null` and yields
`undefined` otherwise — never validates). -/
def validateCandidate (parsed : JValue) : Option CommentaryStructuredPlan :=
  match parsed with
  | .obj flds =>
    let title := asTextJ (lookupField flds "position_plan_title".toList)
    let advantageSummary := asTextJ (lookupField flds "advantage_summary".toList)
    let bestMoveSan := asTextJ (lookupField flds "best_move_san".toList)
    let bestMoveReason := asTextJ (lookupField flds "best_move_reason".toList)
    let dangerToWatch := asTextJ (lookupField flds "danger_to_watch".toList)
    let whitePlan := asPlanBullets (lookupField flds "white_plan".toList)
    let blackPlan := asPlanBullets (lookupField flds "black_plan".toList)
    match title, advantageSummary, bestMoveSan, bestMoveReason,
        dangerToWatch, whitePlan, blackPlan with
    | some t, some advs, some bms, some bmr, some dtw, some wp, some bp =>
      let advantageSide : Chars :=
        match lookupField flds "advantage_side".toList with
        | some (.str s) =>
          if s = "white".toList ∨ s = "black".toList ∨ s = "equal".toList ∨
              s = "unclear".toList then s
          else "unclear".toList
        | _ => "unclear".toList
      let ideasRaw := match lookupField flds "concrete_ideas".toList with
        | some (.arr xs) => xs
        | _ => []
      let ideas := (ideasRaw.enum.filterMap fun p => parseIdea p.1 p.2).take 2
      some
        { position_plan_title := t
          advantage_side := advantageSide
          advantage_summary := advs
          best_move_san := bms
          best_move_reason := bmr
          danger_to_watch := dtw
          white_plan := wp
          black_plan := bp
          concrete_ideas := ideas }
    | _, _, _, _, _, _, _ => none
  | _ => none

/-- One candidate attempt: direct parse, then one retry on the
comma-repaired text; parse or validation failure gives `none`. -/
def tryCandidate (candidate : Chars) : Option CommentaryStructuredPlan :=
  match jsonParse candidate with
  | some parsed => validateCandidate parsed
  | none =>
    match jsonParse (repairCandidate candidate) with
    | some parsed => validateCandidate parsed
    | none => none

/-- The deduplicated candidate list (`pushCandidate` over `clean` and the
scanner's candidates). -/
def buildCandidates (clean : Chars) : List Chars :=
  (clean :: extractJsonObjectCandidates clean).foldl
    (fun acc cand =>
      let normalized := normalizeCandidate cand
      if normalized = [] ∨ normalized ∈ acc then acc else acc ++ [normalized])
    []

/-- `parseCommentaryStructuredFromText(rawText)`. -/
def parseCommentaryStructuredFromText (rawText : Chars) :
    Option CommentaryStructuredPlan :=
  let clean := sanitizeCommentaryText rawText
  if clean = [] then none
  else (buildCandidates clean).findSome? tryCandidate

/-- A text whose string-aware brace depth is strictly positive after
every nonempty prefix: an opened JSON object that never closes, i.e. a
truncated object. -/
def Unclosed (cs : Chars) : Prop :=
  cs ≠ [] ∧ ∀ n < cs.length, 1 ≤ (scanFold scanInit (cs.take (n + 1))).depth

instance (cs : Chars) : Decidable (Unclosed cs) := by
  unfold Unclosed; infer_instance

/-! ## Specification-level predicates and concrete instances -/

/-- No session carrying this token is live in the state. -/
def notOwns (tok : Int) (s : AnalysisArrowState) : Prop :=
  ∀ sess, s.session = some sess → sess.streamToken ≠ tok

instance (tok : Int) (s : AnalysisArrowState) : Decidable (notOwns tok s) := by
  unfold notOwns
  cases s.session <;> simp <;> infer_instance

/-- The depth-like view of a stream event, `none` for `analysis_error`. -/
def depthLikeOfStream : StockfishStreamEvent → Option DepthLikeEvent
  | .depth_update e => some (.depth_update e)
  | .analysis_complete e => some (.analysis_complete e)
  | .analysis_error _ => none

/-- `fen` of a depth-like event. -/
def depthLikeFen : DepthLikeEvent → String
  | .depth_update e => e.fen
  | .analysis_complete e => e.fen

/-- `analysis_id` of a depth-like event. -/
def depthLikeAnalysisId : DepthLikeEvent → String
  | .depth_update e => e.analysis_id
  | .analysis_complete e => e.analysis_id

/-- The sort order produced by the merger's comparator: descending depth,
ties by ascending rank. -/
def candOrdered (a b : CandidateStockfishLine) : Prop :=
  a.depth > b.depth ∨ (a.depth = b.depth ∧ a.rank ≤ b.rank)

/-- A character list that never moves the brace scanner from a
plain (outside-string) state. -/
def ScanNeutral (cs : Chars) : Prop :=
  ∀ d : Nat, scanFold ⟨d, false, false⟩ cs = ⟨d, false, false⟩

/-- A character list that, from a plain state one level deep, closes that
level (the consumed text of an object body including its final `}`). -/
def ScanCloser (cs : Chars) : Prop :=
  ∀ d : Nat, scanFold ⟨d + 1, false, false⟩ cs = ⟨d, false, false⟩

/-- The consumed body of a string literal (after its opening quote,
including its closing quote): returns the scanner to a plain state. -/
def StrBlock (cs : Chars) : Prop :=
  ∀ d : Nat, scanFold ⟨d, true, false⟩ cs = ⟨d, false, false⟩

/-- Whether `JSON.parse` accepts this text as a JSON object. -/
def IsObjParse (s : Chars) : Bool :=
  match jsonParse s with
  | some (.obj _) => true
  | _ => false

/-- Wrap a text in a closed triple-backtick fence with an opening-line
tag (e.g. `"json"`). -/
def fenceWrap (tag J : Chars) : Chars :=
  "```".toList ++ tag ++ '\n' :: (J ++ '\n' :: "```".toList)

/-! Concrete instances used by witnesses and counterexamples. -/

/-- First chunk of the C2 counterexample: a data line whose stray
carriage returns get re-normalized on the following call. -/
def c2chunkA : Chars := "data:a\r\r\nx".toList

/-- Second chunk of the C2 counterexample. -/
def c2chunkB : Chars := "\n\nz".toList

/-- A CR-free stream split across chunks, for the C2 witness. -/
def c2wChunks : List Chars :=
  ["event: png\nda".toList,
   "ta: ".toList ++ '{' :: "\"d\":3".toList ++ '}' :: "\n\ndata:x".toList,
   "\n\n".toList]

/-- A complete commentary JSON object (used by C7/C8 instances). -/
def cJson : Chars :=
  '{' :: ("\"position_plan_title\":\"Open center\",\"advantage_side\":\"white\"," ++
   "\"advantage_summary\":\"s\",\"best_move_san\":\"e4\"," ++
   "\"best_move_reason\":\"r\",\"danger_to_watch\":\"d\"," ++
   "\"white_plan\":[\"a\",\"b\"],\"black_plan\":[\"c\",\"d\"]").toList ++ ['}']

/-- The same object with a triple backtick inside a string value. -/
def cJsonTicks : Chars :=
  '{' :: ("\"position_plan_title\":\"a```b\",\"advantage_side\":\"white\"," ++
   "\"advantage_summary\":\"s\",\"best_move_san\":\"e4\"," ++
   "\"best_move_reason\":\"r\",\"danger_to_watch\":\"d\"," ++
   "\"white_plan\":[\"a\",\"b\"],\"black_plan\":[\"c\",\"d\"]").toList ++ ['}']

/-- A truncated JSON object (its final `}` missing). -/
def cTrunc : Chars := '{' :: "\"position_plan_title\":\"x\"".toList

/-- A reported engine line used to build concrete merger inputs. -/
def mkPVLine (pv0 : String) (rank : Int) : StockfishPVLine :=
  { rank := rank, san := none, cp := some 35, mate := none,
    arrow := { uci := pv0, from_square := "e2", to_square := "e4",
               color_slot := 0 },
    pv := [pv0] }

/-- A depth-10 report with two branches. -/
def c3payloadA : DepthLikeEvent := .depth_update
  { analysis_id := "a", fen := "f", side_to_move := "white", depth := 10,
    multipv := 2, bestmove_uci := none,
    lines := [mkPVLine "e2e4" 1, mkPVLine "d2d4" 2], generated_at := "" }

/-- A depth-9 report for the `e2e4` branch (one level shallower). -/
def c3payloadB : DepthLikeEvent := .depth_update
  { analysis_id := "a", fen := "f", side_to_move := "white", depth := 9,
    multipv := 1, bestmove_uci := none, lines := [mkPVLine "e2e4" 1],
    generated_at := "" }

/-- The candidate set after merging the depth-10 report into nothing. -/
def c3current : List CandidateStockfishLine :=
  mergeCandidateStockfishLines [] c3payloadA

/-- The stored depth-10 candidate for branch `e2e4`. -/
def c3stored : CandidateStockfishLine :=
  { branchUci := "e2e4", firstMoveSan := none, depth := 10, rank := 1,
    evalLabel := "+0.35", pvUci := ["e2e4"] }

/-- The merged entry for branch `e2e4` after the depth-9 report. -/
def c3kept : CandidateStockfishLine :=
  (mergeCandidateStockfishLines c3current c3payloadB).headD
    { branchUci := "", firstMoveSan := none, depth := 0, rank := 0,
      evalLabel := "", pvUci := [] }

/-- A streaming state with one live session, used by arrow-state
instances. -/
def cSession : AnalysisArrowSession :=
  { streamToken := 7, targetFen := "f", analysisId := none, minDepth := 8,
    warmupDepthCount := 10, warmupTopN := 5, steadyTopN := 5 }

/-- A live streaming state holding `cSession`. -/
def cState : AnalysisArrowState :=
  { status := .streaming, session := some cSession, snapshot := none,
    events := [], lastError := none }

/-- A depth-8 update carrying two rank-ordered lines for `cState`'s
target position. -/
def cDepthEvent : StockfishStreamEvent := .depth_update
  { analysis_id := "a", fen := "f", side_to_move := "white", depth := 8,
    multipv := 2, bestmove_uci := none,
    lines := [mkPVLine "e2e4" 1, mkPVLine "d2d4" 2], generated_at := "" }

/-- The same update with its lines out of rank order (rank 2 first). -/
def cUnsortedEvent : StockfishStreamEvent := .depth_update
  { analysis_id := "a", fen := "f", side_to_move := "white", depth := 8,
    multipv := 2, bestmove_uci := none,
    lines := [mkPVLine "d2d4" 2, mkPVLine "e2e4" 1], generated_at := "" }

/-- A session configured with `warmupTopN = 0`. -/
def cZeroSession : AnalysisArrowSession :=
  { streamToken := 7, targetFen := "f", analysisId := none, minDepth := 8,
    warmupDepthCount := 10, warmupTopN := 0, steadyTopN := 0 }

/-- A live streaming state holding `cZeroSession`. -/
def cZeroState : AnalysisArrowState :=
  { status := .streaming, session := some cZeroSession, snapshot := none,
    events := [], lastError := none }

/-! # Theorems

## Frame decoder: chunk-boundary invariance (C2) -/

theorem emitLoopF_irrel (f1 : Nat) : ∀ (f2 : Nat) (w : Chars),
    w.length < f1 → w.length < f2 → emitLoopF f1 w = emitLoopF f2 w := by
  induction f1 with
  | zero => intro f2 w h1 h2; omega
  | succ g1 ih =>
    intro f2 w h1 h2
    cases f2 with
    | zero => omega
    | succ g2 =>
      simp only [emitLoopF]
      match hsp : splitOnDelim w with
      | none => rfl
      | some (pre, post) =>
        have hlen := splitOnDelim_post_length hsp
        show ((parseSseEventBlock pre).toList ++ (emitLoopF g1 post).1,
            (emitLoopF g1 post).2) =
          ((parseSseEventBlock pre).toList ++ (emitLoopF g2 post).1,
            (emitLoopF g2 post).2)
        rw [ih g2 post (by omega) (by omega)]

theorem emitLoop_eq (w : Chars) :
    emitLoop w =
      match splitOnDelim w with
      | none => ([], w)
      | some (pre, post) =>
        ((parseSseEventBlock pre).toList ++ (emitLoop post).1,
          (emitLoop post).2) := by
  unfold emitLoop
  conv_lhs => simp only [emitLoopF]
  match hsp : splitOnDelim w with
  | none => rfl
  | some (pre, post) =>
    have hlen := splitOnDelim_post_length hsp
    show ((parseSseEventBlock pre).toList ++ (emitLoopF w.length post).1,
        (emitLoopF w.length post).2) =
      ((parseSseEventBlock pre).toList ++ (emitLoopF (post.length + 1) post).1,
        (emitLoopF (post.length + 1) post).2)
    rw [emitLoopF_irrel w.length (post.length + 1) post (by omega) (by omega)]

theorem emitLoop_of_none {w : Chars} (h : splitOnDelim w = none) :
    emitLoop w = ([], w) := by
  rw [emitLoop_eq, h]

theorem emitLoop_of_some {w pre post : Chars}
    (h : splitOnDelim w = some (pre, post)) :
    emitLoop w =
      ((parseSseEventBlock pre).toList ++ (emitLoop post).1,
        (emitLoop post).2) := by
  rw [emitLoop_eq, h]

theorem splitOnDelim_append {x y pre post : Chars}
    (h : splitOnDelim x = some (pre, post)) :
    splitOnDelim (x ++ y) = some (pre, post ++ y) := by
  induction x generalizing pre with
  | nil => simp [splitOnDelim] at h
  | cons c rest ih =>
    simp only [splitOnDelim] at h ⊢
    split at h
    · rename_i hc
      obtain ⟨hc1, hc2⟩ := hc
      match rest, hc2 with
      | r0 :: t, hc2 =>
        simp at hc2 h
        obtain ⟨h1, h2⟩ := h
        subst h1 hc1 hc2
        rw [← h2]
        simp
    · rename_i hc
      split
      · rename_i hcc
        exfalso
        apply hc
        refine ⟨hcc.1, ?_⟩
        cases rest with
        | nil => simp [splitOnDelim] at h
        | cons r0 t => simpa using hcc.2
      · match hsp : splitOnDelim rest with
        | none => rw [hsp] at h; simp at h
        | some (pre', post') =>
          rw [hsp] at h
          simp at h
          obtain ⟨h1, h2⟩ := h
          subst h2
          simp only [List.append_eq]
          rw [ih hsp]
          simp [← h1]

theorem emitLoop_append (x y : Chars) :
    emitLoop (x ++ y) =
      ((emitLoop x).1 ++ (emitLoop ((emitLoop x).2 ++ y)).1,
        (emitLoop ((emitLoop x).2 ++ y)).2) := by
  match hsp : splitOnDelim x with
  | none =>
    rw [emitLoop_of_none hsp]
    simp
  | some (pre, post) =>
    have hlen := splitOnDelim_post_length hsp
    have h2 := splitOnDelim_append (y := y) hsp
    rw [emitLoop_of_some hsp, emitLoop_of_some h2]
    have ih := emitLoop_append post y
    rw [ih]
    simp
termination_by x.length

theorem emitLoop_snd_no_delim (x : Chars) :
    splitOnDelim (emitLoop x).2 = none := by
  match hsp : splitOnDelim x with
  | none => rw [emitLoop_of_none hsp]; exact hsp
  | some (pre, post) =>
    have hlen := splitOnDelim_post_length hsp
    rw [emitLoop_of_some hsp]
    exact emitLoop_snd_no_delim post
termination_by x.length

theorem normalizeCrLf_of_crFree {cs : Chars} (h : CrFree cs) :
    normalizeCrLf cs = cs := by
  induction cs with
  | nil => rfl
  | cons c rest ih =>
    have hc : c ≠ '\r' := by
      intro hcc
      exact h (hcc ▸ List.mem_cons_self c rest)
    have hrest : CrFree rest := fun hm => h (List.mem_cons_of_mem c hm)
    cases rest with
    | nil => simp [normalizeCrLf]
    | cons d t =>
      rw [show normalizeCrLf (c :: d :: t) =
          (if c = '\r' ∧ d = '\n' then '\n' :: normalizeCrLf t
            else c :: normalizeCrLf (d :: t)) from rfl]
      rw [if_neg (fun hcc => hc hcc.1)]
      rw [ih hrest]

theorem crFree_append {a b : Chars} :
    CrFree (a ++ b) ↔ CrFree a ∧ CrFree b := by
  unfold CrFree
  simp [not_or]

theorem emitLoop_snd_crFree {x : Chars} (h : CrFree x) :
    CrFree (emitLoop x).2 := by
  match hsp : splitOnDelim x with
  | none => rw [emitLoop_of_none hsp]; exact h
  | some (pre, post) =>
    have hlen := splitOnDelim_post_length hsp
    rw [emitLoop_of_some hsp]
    have hdec := splitOnDelim_decompose hsp
    rw [hdec] at h
    have hpost : CrFree post := by
      intro hm
      apply h
      simp [hm]
    exact emitLoop_snd_crFree hpost
termination_by x.length

theorem processChunks_eq_emitLoop (chunks : List Chars) (buffer : Chars)
    (hb : CrFree buffer) (hc : ∀ c ∈ chunks, CrFree c)
    (hnd : splitOnDelim buffer = none) :
    processChunks chunks buffer = emitLoop (buffer ++ chunks.flatten) := by
  induction chunks generalizing buffer with
  | nil =>
    simp only [processChunks, List.flatten_nil, List.append_nil]
    rw [emitLoop_of_none hnd]
  | cons c rest ih =>
    have hcc : CrFree c := hc c (List.mem_cons_self c rest)
    have hrest : ∀ x ∈ rest, CrFree x := fun x hx =>
      hc x (List.mem_cons_of_mem c hx)
    have hbc : CrFree (buffer ++ c) := crFree_append.mpr ⟨hb, hcc⟩
    simp only [processChunks]
    have hemit : emitBufferedEvents (buffer ++ c) = emitLoop (buffer ++ c) := by
      unfold emitBufferedEvents
      rw [normalizeCrLf_of_crFree hbc]
    rw [hemit]
    have hrem : CrFree (emitLoop (buffer ++ c)).2 := emitLoop_snd_crFree hbc
    have hremnd : splitOnDelim (emitLoop (buffer ++ c)).2 = none :=
      emitLoop_snd_no_delim (buffer ++ c)
    rw [ih _ hrem hrest hremnd]
    have happ := emitLoop_append (buffer ++ c) rest.flatten
    simp only [List.flatten_cons, List.append_assoc] at happ ⊢
    rw [happ]

/-- C2, corrected.  For inputs free of carriage returns, decoding a
stream chunk-by-chunk (threading the remainder) emits exactly the frames
of a single-call decode of the concatenation, and leaves the same
remainder. -/
theorem c2_decoder_chunk_invariance (chunks : List Chars)
    (hc : ∀ c ∈ chunks, CrFree c) :
    processChunks chunks [] = emitBufferedEvents chunks.flatten := by
  have h := processChunks_eq_emitLoop chunks [] (by simp [CrFree]) hc rfl
  simp only [List.nil_append] at h
  rw [h]
  unfold emitBufferedEvents
  rw [normalizeCrLf_of_crFree]
  intro hm
  simp only [List.mem_flatten] at hm
  obtain ⟨l, hl, hml⟩ := hm
  exact hc l hl hml

/-- Witness for C2: a CR-free three-chunk stream whose chunk boundaries
split both a frame and the blank-line delimiter. -/
theorem c2_decoder_chunk_invariance_witness :
    (∀ c ∈ c2wChunks, CrFree c) ∧
      processChunks c2wChunks [] = emitBufferedEvents c2wChunks.flatten :=
  ⟨by decide, c2_decoder_chunk_invariance c2wChunks (by decide)⟩

/-- Counterexample to C2 as stated: with carriage returns in the input,
the remainder is re-normalized on the next call (`\r\r\n` becomes `\r\n`
and then `\n`), so chunked decoding emits a frame whose data differs from
the single-call decode. -/
theorem c2_counterexample :
    (processChunks [c2chunkA, c2chunkB] []).1 ≠
      (emitBufferedEvents (c2chunkA ++ c2chunkB)).1 := by
  decide

/-! ## Transport: terminal callback discipline (C5) -/

theorem count_replicate_ev_close (k : Nat) :
    (List.replicate k SseCb.ev).count SseCb.close = 0 := by
  induction k with
  | zero => rfl
  | succ n ih => simp [List.replicate_succ, List.count_cons, ih]

theorem count_replicate_ev_error (k : Nat) :
    (List.replicate k SseCb.ev).count SseCb.error = 0 := by
  induction k with
  | zero => rfl
  | succ n ih => simp [List.replicate_succ, List.count_cons, ih]

theorem sseFoldl_invariant (P : SseHandleState → Prop)
    (hstep : ∀ s l, P s → P (sseStep s l)) :
    ∀ (tr : List SseLabel) (s : SseHandleState), P s → P (tr.foldl sseStep s) := by
  intro tr
  induction tr with
  | nil => intro s hs; exact hs
  | cons l rest ih => intro s hs; exact ih _ (hstep s l hs)

theorem sseFoldl_invariant_nc (P : SseHandleState → Prop)
    (hstep : ∀ s l, l ≠ .userClose → P s → P (sseStep s l)) :
    ∀ (tr : List SseLabel) (s : SseHandleState), (∀ l ∈ tr, l ≠ .userClose) →
      P s → P (tr.foldl sseStep s) := by
  intro tr
  induction tr with
  | nil => intro s _ hs; exact hs
  | cons l rest ih =>
    intro s hl hs
    exact ih _ (fun x hx => hl x (List.mem_cons_of_mem l hx))
      (hstep s l (hl l (List.mem_cons_self l rest)) hs)

theorem sse_close_step (s : SseHandleState) (l : SseLabel)
    (h : (s.closed = false → s.log.count .close = 0) ∧
      s.log.count .close ≤ 1) :
    ((sseStep s l).closed = false → (sseStep s l).log.count .close = 0) ∧
      (sseStep s l).log.count .close ≤ 1 := by
  obtain ⟨h0, h1⟩ := h
  cases l <;> simp only [sseStep] <;> split_ifs <;>
    simp_all [List.count_append, List.count_cons, count_replicate_ev_close]

theorem sse_error_step (s : SseHandleState) (l : SseLabel)
    (h : (s.phase ≠ .done → s.log.count .error = 0) ∧
      s.log.count .error ≤ 1) :
    ((sseStep s l).phase ≠ .done → (sseStep s l).log.count .error = 0) ∧
      (sseStep s l).log.count .error ≤ 1 := by
  obtain ⟨h0, h1⟩ := h
  cases l <;> simp only [sseStep] <;> split_ifs <;>
    simp_all [List.count_append, List.count_cons, count_replicate_ev_error]

/-- Invariant of runs in which `close()` is never called: the run loop
itself delivers at most one terminal callback. -/
def SseNoCloseInv (s : SseHandleState) : Prop :=
  s.aborted = false ∧ (s.closed = true → s.phase = .done) ∧
    (s.phase ≠ .done → s.log.count .error + s.log.count .close = 0) ∧
    s.log.count .error + s.log.count .close ≤ 1

theorem sse_nc_step (s : SseHandleState) (l : SseLabel)
    (hl : l ≠ .userClose) (h : SseNoCloseInv s) :
    SseNoCloseInv (sseStep s l) := by
  obtain ⟨ha, hc, h0, h1⟩ := h
  unfold SseNoCloseInv
  cases l with
  | userClose => exact absurd rfl hl
  | fetchOk =>
    simp only [sseStep] <;> split_ifs <;>
      simp_all [List.count_append, List.count_cons]
  | fetchFail =>
    simp only [sseStep] <;> split_ifs <;>
      simp_all [List.count_append, List.count_cons]
  | readChunk k =>
    simp only [sseStep] <;> split_ifs <;>
      simp_all [List.count_append, List.count_cons, count_replicate_ev_close,
        count_replicate_ev_error]
  | readDone =>
    simp only [sseStep] <;> split_ifs <;>
      simp_all [List.count_append, List.count_cons]
  | readFail =>
    simp only [sseStep] <;> split_ifs <;>
      simp_all [List.count_append, List.count_cons]

theorem sse_closed_inv_step (s : SseHandleState) (l : SseLabel)
    (h : s.closed = true → s.aborted = true ∨ s.phase = .done) :
    (sseStep s l).closed = true →
      (sseStep s l).aborted = true ∨ (sseStep s l).phase = .done := by
  cases l <;> simp only [sseStep] <;> split_ifs <;> simp_all

/-- Once the handle is aborted or its run task is finished, no step
delivers `onError`. -/
theorem sse_quiet_step (s : SseHandleState) (l : SseLabel)
    (h : s.aborted = true ∨ s.phase = .done) :
    ((sseStep s l).aborted = true ∨ (sseStep s l).phase = .done) ∧
      (sseStep s l).log.count .error = s.log.count .error := by
  cases l <;> simp only [sseStep] <;> split_ifs <;>
    simp_all [List.count_append, List.count_cons, count_replicate_ev_error]

/-- C5, corrected.  Per handle: at most one `onClose` and at most one
`onError` are ever delivered; when `close()` is never called the run loop
delivers at most one terminal callback in total (`onError` XOR the final
`onClose`); and no `onError` is delivered after an explicit `close()`.
(An explicit `close()` after `onError` has fired still delivers an
`onClose`, which is why both terminal callbacks can appear on one
handle.) -/
theorem c5_transport_terminal_callbacks :
    (∀ tr : List SseLabel, (sseRun tr).log.count .close ≤ 1) ∧
    (∀ tr : List SseLabel, (sseRun tr).log.count .error ≤ 1) ∧
    (∀ tr : List SseLabel, (∀ l ∈ tr, l ≠ .userClose) →
      (sseRun tr).log.count .error + (sseRun tr).log.count .close ≤ 1) ∧
    (∀ t1 t2 : List SseLabel,
      (sseRun (t1 ++ .userClose :: t2)).log.count .error =
        (sseRun t1).log.count .error) := by
  refine ⟨?_, ?_, ?_, ?_⟩
  · intro tr
    exact (sseFoldl_invariant _ sse_close_step tr sseInit
      (by simp [sseInit])).2
  · intro tr
    exact (sseFoldl_invariant _ sse_error_step tr sseInit
      (by simp [sseInit])).2
  · intro tr hnc
    exact (sseFoldl_invariant_nc _ sse_nc_step tr sseInit hnc
      (by simp [SseNoCloseInv, sseInit])).2.2.2
  · intro t1 t2
    unfold sseRun
    rw [List.foldl_append, List.foldl_cons]
    have hinv : (t1.foldl sseStep sseInit).closed = true →
        (t1.foldl sseStep sseInit).aborted = true ∨
          (t1.foldl sseStep sseInit).phase = .done :=
      sseFoldl_invariant _ sse_closed_inv_step t1 sseInit (by simp [sseInit])
    have hq : (sseStep (t1.foldl sseStep sseInit) .userClose).aborted = true ∨
        (sseStep (t1.foldl sseStep sseInit) .userClose).phase = .done := by
      by_cases hcl : (t1.foldl sseStep sseInit).closed = true
      · simp only [sseStep, hcl, if_true]
        exact hinv hcl
      · simp only [sseStep]
        rw [if_neg (fun hc => hcl hc)]
        left
        rfl
    have hcount :
        (sseStep (t1.foldl sseStep sseInit) .userClose).log.count .error =
          (t1.foldl sseStep sseInit).log.count .error := by
      simp only [sseStep]
      split_ifs <;> simp [List.count_append]
    have hfold := sseFoldl_invariant
      (fun s => (s.aborted = true ∨ s.phase = .done) ∧
        s.log.count .error = (t1.foldl sseStep sseInit).log.count .error)
      (fun s l hp => ⟨(sse_quiet_step s l hp.1).1,
        by rw [(sse_quiet_step s l hp.1).2]; exact hp.2⟩)
      t2 _ ⟨hq, hcount⟩
    exact hfold.2

/-- Witness for C5: on a close-free trace that opens, streams two frames
and ends naturally, the run loop delivers at most one terminal
callback. -/
theorem c5_transport_terminal_callbacks_witness :
    (sseRun [.fetchOk, .readChunk 2, .readDone]).log.count .error +
      (sseRun [.fetchOk, .readChunk 2, .readDone]).log.count .close ≤ 1 :=
  c5_transport_terminal_callbacks.2.2.1 [.fetchOk, .readChunk 2, .readDone]
    (by decide)

/-- Counterexample to C5 as stated: a network failure delivers `onError`
(leaving `closed` false), and a later explicit `close()` still delivers
`onClose` — both terminal callbacks fire on one handle. -/
theorem c5_counterexample :
    (sseRun [.fetchFail, .userClose]).log.count .error = 1 ∧
      (sseRun [.fetchFail, .userClose]).log.count .close = 1 := by
  decide

/-! ## Analysis state machine: stopped sessions stay stopped (C1) -/

theorem stop_establishes_notOwns (now : Int) (s : AnalysisArrowState)
    (tok : Int) (ns : AnalysisStreamStatus) :
    notOwns tok (analysisArrowReducer now s (.stop_session tok ns)) := by
  intro sess hsess
  cases hst : s.session with
  | none =>
    simp only [analysisArrowReducer, hst] at hsess
    simp at hsess
  | some cur =>
    simp only [analysisArrowReducer, hst] at hsess
    by_cases hne : cur.streamToken ≠ tok
    · rw [if_pos hne] at hsess
      rw [hst] at hsess
      simp at hsess
      rw [← hsess]
      exact hne
    · rw [if_neg hne] at hsess
      simp at hsess

theorem step_preserves_notOwns (now : Int) (s : AnalysisArrowState)
    (a : AnalysisArrowAction) (tok : Int)
    (ha : ¬ isStartWithToken tok a) (h : notOwns tok s) :
    notOwns tok (analysisArrowReducer now s a) := by
  intro sess hsess
  cases a with
  | start_session st tf md wdc wtn stn =>
    simp only [analysisArrowReducer, Option.some.injEq] at hsess
    simp only [isStartWithToken] at ha
    rw [← hsess]
    exact ha
  | stop_session st nst =>
    cases hst : s.session with
    | none =>
      simp only [analysisArrowReducer, hst] at hsess
      simp at hsess
    | some cur =>
      simp only [analysisArrowReducer, hst] at hsess
      by_cases hne : cur.streamToken ≠ st
      · rw [if_pos hne] at hsess
        exact h sess hsess
      · rw [if_neg hne] at hsess
        simp at hsess
  | reset_for_board_change =>
    simp only [analysisArrowReducer, createInitialAnalysisArrowState] at hsess
    simp at hsess
  | local_error msg =>
    simp only [analysisArrowReducer] at hsess
    simp at hsess
  | ingest_stream_event st payload =>
    cases hst : s.session with
    | none =>
      simp only [analysisArrowReducer, hst] at hsess
      simp at hsess
    | some cur =>
      have hcur : cur.streamToken ≠ tok := h cur hst
      by_cases hne : cur.streamToken ≠ st
      · simp only [analysisArrowReducer, hst, if_pos hne] at hsess
        simp only [Option.some.injEq] at hsess
        rw [← hsess]
        exact hcur
      · cases payload with
        | analysis_error e =>
          simp only [analysisArrowReducer, hst, if_neg hne] at hsess
          simp at hsess
        | depth_update e =>
          simp only [analysisArrowReducer, hst, if_neg hne] at hsess
          by_cases hfen : e.fen ≠ cur.targetFen
          · rw [if_pos hfen] at hsess
            exact h sess hsess
          · rw [if_neg hfen] at hsess
            by_cases haid : cur.analysisId ≠ none ∧
                some e.analysis_id ≠ cur.analysisId
            · rw [if_pos haid] at hsess
              exact h sess hsess
            · rw [if_neg haid] at hsess
              simp only [Option.some.injEq] at hsess
              rw [← hsess]
              exact hcur
        | analysis_complete e =>
          simp only [analysisArrowReducer, hst, if_neg hne] at hsess
          by_cases hfen : e.fen ≠ cur.targetFen
          · rw [if_pos hfen] at hsess
            exact h sess hsess
          · rw [if_neg hfen] at hsess
            by_cases haid : cur.analysisId ≠ none ∧
                some e.analysis_id ≠ cur.analysisId
            · rw [if_pos haid] at hsess
              exact h sess hsess
            · rw [if_neg haid] at hsess
              simp at hsess

theorem ingest_noop_of_notOwns (now : Int) (s : AnalysisArrowState)
    (tok : Int) (payload : StockfishStreamEvent) (h : notOwns tok s) :
    analysisArrowReducer now s (.ingest_stream_event tok payload) = s := by
  cases hst : s.session with
  | none => simp [analysisArrowReducer, hst]
  | some cur =>
    have hcur : cur.streamToken ≠ tok := h cur hst
    simp [analysisArrowReducer, hst, hcur]

theorem runActions_preserves_notOwns (tok : Int) (tas : List TimedAction) :
    ∀ s : AnalysisArrowState, (∀ ta ∈ tas, ¬ isStartWithToken tok ta.2) →
      notOwns tok s → notOwns tok (runActions s tas) := by
  induction tas with
  | nil => intro s _ h0; exact h0
  | cons ta rest ih =>
    intro s h h0
    simp only [runActions, List.foldl_cons]
    exact ih _ (fun x hx => h x (List.mem_cons_of_mem ta hx))
      (step_preserves_notOwns ta.1 s ta.2 tok
        (h ta (List.mem_cons_self ta rest)) h0)

/-- C1, confirmed.  Once `stop_session(tokenA)` has been applied and no
later action starts a session with `tokenA`, every later
`ingest_stream_event` carrying `tokenA` returns the state unchanged. -/
theorem c1_no_resurrection (s0 : AnalysisArrowState) (tok : Int)
    (ns : AnalysisStreamStatus) (t0 t1 : Int) (tas : List TimedAction)
    (payload : StockfishStreamEvent)
    (h : ∀ ta ∈ tas, ¬ isStartWithToken tok ta.2) :
    analysisArrowReducer t1
        (runActions (analysisArrowReducer t0 s0 (.stop_session tok ns)) tas)
        (.ingest_stream_event tok payload) =
      runActions (analysisArrowReducer t0 s0 (.stop_session tok ns)) tas :=
  ingest_noop_of_notOwns t1 _ tok payload
    (runActions_preserves_notOwns tok tas _ h
      (stop_establishes_notOwns t0 s0 tok ns))

/-- Witness for C1: stop the live token-7 session of `cState`, let an
unrelated session with token 8 start afterwards, then ingest a depth
event carrying token 7 — the state is untouched. -/
theorem c1_no_resurrection_witness :
    analysisArrowReducer 3
        (runActions (analysisArrowReducer 0 cState (.stop_session 7 .closed))
          [(1, .start_session 8 "g" 8 10 5 5)])
        (.ingest_stream_event 7 cDepthEvent) =
      runActions (analysisArrowReducer 0 cState (.stop_session 7 .closed))
        [(1, .start_session 8 "g" 8 10 5 5)] :=
  c1_no_resurrection cState 7 .closed 0 3
    [(1, .start_session 8 "g" 8 10 5 5)] cDepthEvent (by decide)

/-! ## Analysis state machine: `stop_session` frame effect (C10) -/

/-- C10, confirmed.  When the stop token matches the live session, the
reducer changes only `status` (to the action's `nextStatus`) and
`session` (to `none`); `snapshot`, `events` and `lastError` are kept. -/
theorem c10_stop_session_frame (now : Int) (s : AnalysisArrowState)
    (sess : AnalysisArrowSession) (tok : Int) (ns : AnalysisStreamStatus)
    (hs : s.session = some sess) (htok : sess.streamToken = tok) :
    analysisArrowReducer now s (.stop_session tok ns) =
      { s with status := ns, session := none } := by
  simp [analysisArrowReducer, hs, htok]

/-- Witness for C10 at the concrete streaming state `cState`. -/
theorem c10_stop_session_frame_witness :
    analysisArrowReducer 0 cState (.stop_session 7 .closed) =
      { cState with status := .closed, session := none } :=
  c10_stop_session_frame 0 cState cSession 7 .closed rfl rfl

/-! ## Analysis state machine: snapshot shape on accepted events (C6, C9) -/

/-- Shared helper: the snapshot produced by an accepted depth-kind
event. -/
theorem ingest_accepted_snapshot (now : Int) (s : AnalysisArrowState)
    (sess : AnalysisArrowSession) (tok : Int) (payload : StockfishStreamEvent)
    (dl : DepthLikeEvent)
    (hs : s.session = some sess) (htok : sess.streamToken = tok)
    (hdl : depthLikeOfStream payload = some dl)
    (hfen : depthLikeFen dl = sess.targetFen)
    (haid : sess.analysisId = none ∨
      sess.analysisId = some (depthLikeAnalysisId dl)) :
    (analysisArrowReducer now s
      (.ingest_stream_event tok payload)).snapshot =
      some { targetFen := depthLikeFen dl
             analysisId := sess.analysisId.getD (depthLikeAnalysisId dl)
             depth := stockfishDepthOfEvent dl
             arrows := (trimLinesForStage (depthLikeLines dl)
               (stockfishDepthOfEvent dl) sess).map mapLineToBoardArrow
             updatedAtMs := now } := by
  have hne : ¬ sess.streamToken ≠ tok := by simp [htok]
  cases payload with
  | analysis_error e => simp [depthLikeOfStream] at hdl
  | depth_update e =>
    simp only [depthLikeOfStream, Option.some.injEq] at hdl
    subst hdl
    simp only [depthLikeFen] at hfen
    simp only [depthLikeAnalysisId] at haid
    have hfen2 : ¬ e.fen ≠ sess.targetFen := by simp [hfen]
    have haid2 : ¬ (sess.analysisId ≠ none ∧
        some e.analysis_id ≠ sess.analysisId) := by
      rcases haid with h1 | h1 <;> simp [h1]
    simp only [analysisArrowReducer, hs, if_neg hne, if_neg hfen2,
      if_neg haid2, depthLikeFen, depthLikeAnalysisId, depthLikeLines,
      stockfishDepthOfEvent]
  | analysis_complete e =>
    simp only [depthLikeOfStream, Option.some.injEq] at hdl
    subst hdl
    simp only [depthLikeFen] at hfen
    simp only [depthLikeAnalysisId] at haid
    have hfen2 : ¬ e.fen ≠ sess.targetFen := by simp [hfen]
    have haid2 : ¬ (sess.analysisId ≠ none ∧
        some e.analysis_id ≠ sess.analysisId) := by
      rcases haid with h1 | h1 <;> simp [h1]
    simp only [analysisArrowReducer, hs, if_neg hne, if_neg hfen2,
      if_neg haid2, depthLikeFen, depthLikeAnalysisId, depthLikeLines,
      stockfishDepthOfEvent]

/-- C9, confirmed.  An accepted depth-kind event yields a snapshot with
exactly `min(lines.length, max(1, applicable topN))` arrows; in
particular a non-empty `lines` always leaves at least one arrow, even for
a configured top-N of zero or less. -/
theorem c9_trim_floor (now : Int) (s : AnalysisArrowState)
    (sess : AnalysisArrowSession) (tok : Int) (payload : StockfishStreamEvent)
    (dl : DepthLikeEvent)
    (hs : s.session = some sess) (htok : sess.streamToken = tok)
    (hdl : depthLikeOfStream payload = some dl)
    (hfen : depthLikeFen dl = sess.targetFen)
    (haid : sess.analysisId = none ∨
      sess.analysisId = some (depthLikeAnalysisId dl)) :
    ∃ snap,
      (analysisArrowReducer now s
        (.ingest_stream_event tok payload)).snapshot = some snap ∧
      snap.arrows.length = min (depthLikeLines dl).length
        (max 1 (if stockfishDepthOfEvent dl ≤
            sess.minDepth + sess.warmupDepthCount - 1
          then sess.warmupTopN else sess.steadyTopN)).toNat ∧
      (depthLikeLines dl ≠ [] → 1 ≤ snap.arrows.length) := by
  refine ⟨_, ingest_accepted_snapshot now s sess tok payload dl hs htok hdl
    hfen haid, ?_, ?_⟩
  · simp only [List.length_map, trimLinesForStage]
    rw [List.length_take]
    omega
  · intro hne2
    have hlen : 1 ≤ (depthLikeLines dl).length := List.length_pos.mpr hne2
    simp only [List.length_map, trimLinesForStage]
    rw [List.length_take]
    omega

/-- Witness for C9: a session configured with `warmupTopN = 0` still
keeps one arrow out of a two-line depth event. -/
theorem c9_trim_floor_witness :
    ∃ snap,
      (analysisArrowReducer 0 cZeroState
        (.ingest_stream_event 7 cDepthEvent)).snapshot = some snap ∧
      snap.arrows.length = 1 ∧ 1 ≤ snap.arrows.length := by
  obtain ⟨snap, hsnap, hlen, hpos⟩ :=
    c9_trim_floor 0 cZeroState cZeroSession 7 cDepthEvent
      (.depth_update
        { analysis_id := "a", fen := "f", side_to_move := "white",
          depth := 8, multipv := 2, bestmove_uci := none,
          lines := [mkPVLine "e2e4" 1, mkPVLine "d2d4" 2],
          generated_at := "" })
      rfl rfl rfl rfl (Or.inl rfl)
  exact ⟨snap, hsnap, by rw [hlen]; decide, hpos (by decide)⟩

/-- C6, corrected.  For an accepted depth-kind event whose lines are
sorted by ascending rank, the snapshot's arrows are sorted by ascending
rank, and their number is bounded by `max 1 topN` for the applicable
warmup/steady top-N. -/
theorem c6_snapshot_sorted_bounded (now : Int) (s : AnalysisArrowState)
    (sess : AnalysisArrowSession) (tok : Int) (payload : StockfishStreamEvent)
    (dl : DepthLikeEvent)
    (hs : s.session = some sess) (htok : sess.streamToken = tok)
    (hdl : depthLikeOfStream payload = some dl)
    (hfen : depthLikeFen dl = sess.targetFen)
    (haid : sess.analysisId = none ∨
      sess.analysisId = some (depthLikeAnalysisId dl))
    (hsort : List.Pairwise (fun a b => a.rank ≤ b.rank) (depthLikeLines dl)) :
    ∃ snap,
      (analysisArrowReducer now s
        (.ingest_stream_event tok payload)).snapshot = some snap ∧
      List.Pairwise (fun a b => a.rank ≤ b.rank) snap.arrows ∧
      snap.arrows.length ≤
        (max 1 (if stockfishDepthOfEvent dl ≤
            sess.minDepth + sess.warmupDepthCount - 1
          then sess.warmupTopN else sess.steadyTopN)).toNat := by
  refine ⟨_, ingest_accepted_snapshot now s sess tok payload dl hs htok hdl
    hfen haid, ?_, ?_⟩
  · rw [List.pairwise_map]
    refine List.Pairwise.sublist ?_ hsort
    exact List.take_sublist _ _
  · simp only [List.length_map, trimLinesForStage]
    rw [List.length_take]
    omega

/-- Witness for C6: the rank-sorted two-line depth event `cDepthEvent`
accepted by `cState` yields a rank-sorted snapshot within the warmup
bound. -/
theorem c6_snapshot_sorted_bounded_witness :
    ∃ snap,
      (analysisArrowReducer 0 cState
        (.ingest_stream_event 7 cDepthEvent)).snapshot = some snap ∧
      List.Pairwise (fun a b => a.rank ≤ b.rank) snap.arrows ∧
      snap.arrows.length ≤ 5 := by
  obtain ⟨snap, hsnap, hsort, hlen⟩ :=
    c6_snapshot_sorted_bounded 0 cState cSession 7 cDepthEvent
      (.depth_update
        { analysis_id := "a", fen := "f", side_to_move := "white",
          depth := 8, multipv := 2, bestmove_uci := none,
          lines := [mkPVLine "e2e4" 1, mkPVLine "d2d4" 2],
          generated_at := "" })
      rfl rfl rfl rfl (Or.inl rfl) (by decide)
  refine ⟨snap, hsnap, hsort, le_trans hlen (by decide)⟩

/-- Counterexample to C6 as stated: the reducer does not sort incoming
lines (ranks `[2, 1]` stay in event order), and with `warmupTopN = 0`
the snapshot still holds one arrow, exceeding the configured top-N. -/
theorem c6_counterexample :
    ((analysisArrowReducer 0 cState
        (.ingest_stream_event 7 cUnsortedEvent)).snapshot.map
      (fun snap => snap.arrows.map (fun a => a.rank))) = some [2, 1] ∧
    ((analysisArrowReducer 0 cZeroState
        (.ingest_stream_event 7 cDepthEvent)).snapshot.map
      (fun snap => snap.arrows.length)) = some 1 := by
  decide

/-! ## Candidate line merger (C3, C4) -/

theorem candGet_candSet (m : CandMap) (k k' : String)
    (v : CandidateStockfishLine) :
    candGet (candSet m k v) k' = if k = k' then some v else candGet m k' := by
  induction m with
  | nil => simp [candSet, candGet]
  | cons p rest ih =>
    obtain ⟨pk, pv⟩ := p
    by_cases hk : pk = k
    · subst hk
      by_cases hk2 : pk = k'
      · subst hk2
        simp [candSet, candGet]
      · simp [candSet, candGet, hk2]
    · by_cases hk2 : pk = k'
      · subst hk2
        have hne : ¬ k = pk := fun hh => hk hh.symm
        simp [candSet, candGet, hk, hne]
      · simp [candSet, candGet, hk, hk2, ih]

theorem candGet_candSet_self (m : CandMap) (k : String)
    (v : CandidateStockfishLine) : candGet (candSet m k v) k = some v := by
  rw [candGet_candSet]
  simp

theorem candGet_candSet_ne (m : CandMap) (k k' : String)
    (v : CandidateStockfishLine) (h : k' ≠ k) :
    candGet (candSet m k v) k' = candGet m k' := by
  rw [candGet_candSet]
  rw [if_neg (fun hh => h hh.symm)]

theorem mem_candSet {m : CandMap} {k : String} {v : CandidateStockfishLine}
    {p : String × CandidateStockfishLine} (h : p ∈ candSet m k v) :
    p ∈ m ∨ p = (k, v) := by
  induction m with
  | nil => simp [candSet] at h; right; exact h
  | cons q rest ih =>
    by_cases hk : q.1 = k
    · rw [candSet, if_pos hk] at h
      rcases List.mem_cons.mp h with rfl | hm
      · right; rfl
      · left; exact List.mem_cons_of_mem q hm
    · rw [candSet, if_neg hk] at h
      rcases List.mem_cons.mp h with rfl | hm
      · left; exact List.mem_cons_self _ _
      · rcases ih hm with hm2 | hm2
        · left; exact List.mem_cons_of_mem q hm2
        · right; exact hm2

/-- Keys of an association map are duplicate-free. -/
def CandKeysNodup (m : CandMap) : Prop := (m.map Prod.fst).Nodup

/-- Every stored candidate's `branchUci` equals its key. -/
def CandKVOk (m : CandMap) : Prop :=
  ∀ p ∈ m, (Prod.snd p).branchUci = Prod.fst p

theorem candKeysNodup_candSet (m : CandMap) (k : String)
    (v : CandidateStockfishLine) (h : CandKeysNodup m) :
    CandKeysNodup (candSet m k v) := by
  induction m with
  | nil => simp [candSet, CandKeysNodup]
  | cons q rest ih =>
    obtain ⟨qk, qv⟩ := q
    unfold CandKeysNodup at h ⊢
    rw [List.map_cons, List.nodup_cons] at h
    obtain ⟨hq, hrest⟩ := h
    by_cases hk : qk = k
    · rw [candSet, if_pos hk, List.map_cons, List.nodup_cons]
      refine ⟨?_, hrest⟩
      rw [← hk]
      exact hq
    · rw [candSet, if_neg hk, List.map_cons, List.nodup_cons]
      refine ⟨?_, ih hrest⟩
      intro hmem
      rw [List.mem_map] at hmem
      obtain ⟨p, hp, hpq⟩ := hmem
      rcases mem_candSet hp with hm | heq
      · exact hq (hpq ▸ List.mem_map_of_mem Prod.fst hm)
      · rw [heq] at hpq
        exact hk hpq.symm

theorem candKVOk_candSet (m : CandMap) (k : String)
    (v : CandidateStockfishLine) (h : CandKVOk m) (hv : v.branchUci = k) :
    CandKVOk (candSet m k v) := by
  unfold CandKVOk
  intro p hp
  rcases mem_candSet hp with hm | heq
  · exact h p hm
  · rw [heq]
    exact hv

theorem candGet_of_mem_nodup {m : CandMap} (h : CandKeysNodup m)
    {k : String} {v : CandidateStockfishLine} (hm : (k, v) ∈ m) :
    candGet m k = some v := by
  induction m with
  | nil => simp at hm
  | cons q rest ih =>
    obtain ⟨qk, qv⟩ := q
    unfold CandKeysNodup at h
    rw [List.map_cons, List.nodup_cons] at h
    obtain ⟨hq, hrest⟩ := h
    rcases List.mem_cons.mp hm with heq | hm2
    · have h1 : qk = k := by rw [Prod.mk.injEq] at heq; exact heq.1.symm
      have h2 : qv = v := by rw [Prod.mk.injEq] at heq; exact heq.2.symm
      simp [candGet, h1, h2]
    · have hne : qk ≠ k := by
        intro hkk
        apply hq
        rw [hkk]
        exact List.mem_map.mpr ⟨(k, v), hm2, rfl⟩
      simp only [candGet, if_neg hne]
      exact ih hrest hm2

theorem mergeLineStep_kvok (depth : Int) (m : CandMap)
    (line : StockfishPVLine) (h : CandKVOk m) :
    CandKVOk (mergeLineStep depth m line) := by
  unfold mergeLineStep
  split_ifs with hb
  · exact h
  · split
    · exact candKVOk_candSet _ _ _ h rfl
    · split_ifs
      · exact candKVOk_candSet _ _ _ h rfl
      · exact h

theorem mergeLineStep_nodup (depth : Int) (m : CandMap)
    (line : StockfishPVLine) (h : CandKeysNodup m) :
    CandKeysNodup (mergeLineStep depth m line) := by
  unfold mergeLineStep
  split_ifs with hb
  · exact h
  · split
    · exact candKeysNodup_candSet _ _ _ h
    · split_ifs
      · exact candKeysNodup_candSet _ _ _ h
      · exact h

theorem mergeLineStep_get_preserved (depth : Int) (m : CandMap)
    (line : StockfishPVLine) (b : String) (v : CandidateStockfishLine)
    (hget : candGet m b = some v)
    (hcond : branchUciOfLine line = b →
      ¬ (depth > v.depth ∨ (depth = v.depth ∧ line.rank < v.rank))) :
    candGet (mergeLineStep depth m line) b = some v := by
  unfold mergeLineStep
  split_ifs with hb
  · exact hget
  · by_cases hbb : branchUciOfLine line = b
    · rw [hbb, hget]
      show candGet (if depth > v.depth ∨ (depth = v.depth ∧
          line.rank < v.rank) then candSet m b (candidateOfLine depth line)
        else m) b = some v
      rw [if_neg (hcond hbb)]
      exact hget
    · split
      · rw [candGet_candSet_ne _ _ _ _ (fun hh => hbb hh.symm)]
        exact hget
      · split_ifs
        · rw [candGet_candSet_ne _ _ _ _ (fun hh => hbb hh.symm)]
          exact hget
        · exact hget

theorem foldl_mergeLineStep_get (depth : Int)
    (lines : List StockfishPVLine) :
    ∀ (m : CandMap) (b : String) (v : CandidateStockfishLine),
      candGet m b = some v →
      (∀ line ∈ lines, branchUciOfLine line = b →
        ¬ (depth > v.depth ∨ (depth = v.depth ∧ line.rank < v.rank))) →
      candGet (lines.foldl (mergeLineStep depth) m) b = some v := by
  induction lines with
  | nil => intro m b v hget _; exact hget
  | cons line rest ih =>
    intro m b v hget hcond
    rw [List.foldl_cons]
    exact ih _ b v
      (mergeLineStep_get_preserved depth m line b v hget
        (hcond line (List.mem_cons_self line rest)))
      (fun x hx => hcond x (List.mem_cons_of_mem line hx))

theorem foldl_mergeLineStep_kvok (depth : Int)
    (lines : List StockfishPVLine) :
    ∀ m : CandMap, CandKVOk m →
      CandKVOk (lines.foldl (mergeLineStep depth) m) := by
  induction lines with
  | nil => intro m h; exact h
  | cons line rest ih =>
    intro m h
    rw [List.foldl_cons]
    exact ih _ (mergeLineStep_kvok depth m line h)

theorem foldl_mergeLineStep_nodup (depth : Int)
    (lines : List StockfishPVLine) :
    ∀ m : CandMap, CandKeysNodup m →
      CandKeysNodup (lines.foldl (mergeLineStep depth) m) := by
  induction lines with
  | nil => intro m h; exact h
  | cons line rest ih =>
    intro m h
    rw [List.foldl_cons]
    exact ih _ (mergeLineStep_nodup depth m line h)

theorem candMapOfCurrent_kvok (current : List CandidateStockfishLine) :
    CandKVOk (candMapOfCurrent current) := by
  unfold candMapOfCurrent
  have : ∀ (l : List CandidateStockfishLine) (m : CandMap), CandKVOk m →
      CandKVOk (l.foldl (fun m line => candSet m line.branchUci line) m) := by
    intro l
    induction l with
    | nil => intro m h; exact h
    | cons x rest ih =>
      intro m h
      rw [List.foldl_cons]
      exact ih _ (candKVOk_candSet m x.branchUci x h rfl)
  exact this current [] (by intro p hp; simp at hp)

theorem candMapOfCurrent_nodup (current : List CandidateStockfishLine) :
    CandKeysNodup (candMapOfCurrent current) := by
  unfold candMapOfCurrent
  have : ∀ (l : List CandidateStockfishLine) (m : CandMap), CandKeysNodup m →
      CandKeysNodup (l.foldl (fun m line => candSet m line.branchUci line) m) := by
    intro l
    induction l with
    | nil => intro m h; exact h
    | cons x rest ih =>
      intro m h
      rw [List.foldl_cons]
      exact ih _ (candKeysNodup_candSet m x.branchUci x h)
  exact this current [] (by simp [CandKeysNodup])

theorem mem_candInsert (x y : CandidateStockfishLine)
    (l : List CandidateStockfishLine) :
    y ∈ candInsert x l ↔ y = x ∨ y ∈ l := by
  induction l with
  | nil => simp [candInsert]
  | cons z zs ih =>
    unfold candInsert
    split_ifs
    · rw [List.mem_cons, ih, List.mem_cons]
      tauto
    · simp [List.mem_cons]

theorem mem_candSort (l : List CandidateStockfishLine)
    (y : CandidateStockfishLine) : y ∈ candSort l ↔ y ∈ l := by
  unfold candSort
  induction l with
  | nil => simp
  | cons x xs ih =>
    rw [List.foldr_cons, mem_candInsert, ih, List.mem_cons]

/-- C3, confirmed.  An existing candidate for a branch is replaced only
by a report line carrying strictly greater depth, or equal depth and a
strictly lower rank; otherwise the stored entry survives every merge that
keeps its branch. -/
theorem c3_merge_replace_guard (current : List CandidateStockfishLine)
    (payload : DepthLikeEvent) (b : String) (v : CandidateStockfishLine)
    (hget : candGet (candMapOfCurrent current) b = some v)
    (hcond : ∀ line ∈ depthLikeLines payload, branchUciOfLine line = b →
      ¬ (stockfishDepthOfEvent payload > v.depth ∨
        (stockfishDepthOfEvent payload = v.depth ∧ line.rank < v.rank)))
    (w : CandidateStockfishLine)
    (hw : w ∈ mergeCandidateStockfishLines current payload)
    (hwb : w.branchUci = b) : w = v := by
  unfold mergeCandidateStockfishLines at hw
  have hkv : CandKVOk ((depthLikeLines payload).foldl
      (mergeLineStep (stockfishDepthOfEvent payload))
      (candMapOfCurrent current)) :=
    foldl_mergeLineStep_kvok _ _ _ (candMapOfCurrent_kvok current)
  have hnd : CandKeysNodup ((depthLikeLines payload).foldl
      (mergeLineStep (stockfishDepthOfEvent payload))
      (candMapOfCurrent current)) :=
    foldl_mergeLineStep_nodup _ _ _ (candMapOfCurrent_nodup current)
  have hget2 : candGet ((depthLikeLines payload).foldl
      (mergeLineStep (stockfishDepthOfEvent payload))
      (candMapOfCurrent current)) b = some v :=
    foldl_mergeLineStep_get _ _ _ b v hget hcond
  have hw2 := List.mem_of_mem_take hw
  rw [mem_candSort] at hw2
  rw [List.mem_map] at hw2
  obtain ⟨p, hp, hpw⟩ := hw2
  have hkey : p.1 = b := by
    have h2 := hkv p hp
    rw [hpw, hwb] at h2
    exact h2.symm
  have hpair : (p.1, w) ∈ (depthLikeLines payload).foldl
      (mergeLineStep (stockfishDepthOfEvent payload))
      (candMapOfCurrent current) := by
    have heta : (p.1, w) = p := by
      rw [← hpw]
    exact heta ▸ hp
  have hsome := candGet_of_mem_nodup hnd hpair
  rw [hkey] at hsome
  rw [hget2] at hsome
  injection hsome with h3
  exact h3.symm

/-- Witness for C3: merge a depth-10 two-branch report into an empty set,
then a depth-9 report for branch `e2e4` — the merged entry for `e2e4` is
still the stored depth-10 candidate. -/
theorem c3_merge_replace_guard_witness : c3kept = c3stored :=
  c3_merge_replace_guard c3current c3payloadB "e2e4" c3stored (by decide)
    (by decide) c3kept (by decide) (by decide)

theorem candInsert_pairwise (x : CandidateStockfishLine)
    (l : List CandidateStockfishLine) (h : l.Pairwise candOrdered) :
    (candInsert x l).Pairwise candOrdered := by
  induction l with
  | nil => simp [candInsert]
  | cons y ys ih =>
    rw [List.pairwise_cons] at h
    obtain ⟨hy, hys⟩ := h
    unfold candInsert
    split_ifs with hp
    · rw [List.pairwise_cons]
      constructor
      · intro z hz
        rcases (mem_candInsert x z ys).mp hz with rfl | hz
        · unfold candPrecedes at hp
          unfold candOrdered
          omega
        · exact hy z hz
      · exact ih hys
    · rw [List.pairwise_cons]
      constructor
      · intro z hz
        rcases List.mem_cons.mp hz with rfl | hz
        · unfold candPrecedes at hp
          unfold candOrdered
          omega
        · have hyz := hy z hz
          unfold candPrecedes at hp
          unfold candOrdered at hyz ⊢
          omega
      · exact List.pairwise_cons.mpr ⟨hy, hys⟩

theorem candSort_pairwise (l : List CandidateStockfishLine) :
    (candSort l).Pairwise candOrdered := by
  unfold candSort
  induction l with
  | nil => simp
  | cons x xs ih =>
    rw [List.foldr_cons]
    exact candInsert_pairwise x _ ih

/-- C4, confirmed.  After any merge the candidate set holds at most 10
entries and is sorted by descending depth, ties broken by ascending
rank. -/
theorem c4_merge_bounded_sorted (current : List CandidateStockfishLine)
    (payload : DepthLikeEvent) :
    (mergeCandidateStockfishLines current payload).length ≤ 10 ∧
      (mergeCandidateStockfishLines current payload).Pairwise candOrdered := by
  unfold mergeCandidateStockfishLines
  constructor
  · rw [List.length_take]
    exact min_le_left _ _
  · exact List.Pairwise.sublist (List.take_sublist _ _) (candSort_pairwise _)

/-! ## Commentary extractor: scanner/parser agreement (towards C7, C8)

A successful `JSON.parse` consumes text that is neutral for the
brace-depth scanner of `extractJsonObjectCandidates`; hence a text whose
braces never close (a truncated object) can never parse. -/

theorem scanFold_append (st : ScanSt) (a b : Chars) :
    scanFold st (a ++ b) = scanFold (scanFold st a) b :=
  List.foldl_append scanStep st a b

theorem scanStep_plain {c : Char} (h1 : c ≠ '"') (h2 : c ≠ '{')
    (h3 : c ≠ '}') (d : Nat) :
    scanStep ⟨d, false, false⟩ c = ⟨d, false, false⟩ := by
  unfold scanStep
  simp [h1, h2, h3]

theorem scanNeutral_nil : ScanNeutral [] := fun _ => rfl

theorem scanNeutral_cons {c : Char} {cs : Chars} (h1 : c ≠ '"')
    (h2 : c ≠ '{') (h3 : c ≠ '}') (h : ScanNeutral cs) :
    ScanNeutral (c :: cs) := by
  intro d
  show scanFold (scanStep ⟨d, false, false⟩ c) cs = ⟨d, false, false⟩
  rw [scanStep_plain h1 h2 h3]
  exact h d

theorem scanNeutral_append {a b : Chars} (ha : ScanNeutral a)
    (hb : ScanNeutral b) : ScanNeutral (a ++ b) := by
  intro d
  rw [scanFold_append, ha d, hb d]

theorem scanNeutral_of_all {cs : Chars}
    (h : ∀ c ∈ cs, c ≠ '"' ∧ c ≠ '{' ∧ c ≠ '}') : ScanNeutral cs := by
  induction cs with
  | nil => exact scanNeutral_nil
  | cons c rest ih =>
    obtain ⟨h1, h2, h3⟩ := h c (List.mem_cons_self c rest)
    exact scanNeutral_cons h1 h2 h3
      (ih fun x hx => h x (List.mem_cons_of_mem c hx))

theorem jsonWs_plain {c : Char} (h : isJsonWs c = true) :
    c ≠ '"' ∧ c ≠ '{' ∧ c ≠ '}' := by
  unfold isJsonWs at h
  simp only [Bool.or_eq_true, decide_eq_true_eq] at h
  rcases h with ((rfl | rfl) | rfl) | rfl <;>
    exact ⟨by decide, by decide, by decide⟩

theorem scanNeutral_takeWhile_ws (s : Chars) :
    ScanNeutral (s.takeWhile isJsonWs) := by
  apply scanNeutral_of_all
  intro c hc
  exact jsonWs_plain (List.mem_takeWhile_imp hc)

theorem skipWs_decompose (s : Chars) :
    s = s.takeWhile isJsonWs ++ skipWs s :=
  (List.takeWhile_append_dropWhile (p := isJsonWs) (l := s)).symm

theorem digit_plain {c : Char} (h : isDigitChar c = true) :
    c ≠ '"' ∧ c ≠ '{' ∧ c ≠ '}' := by
  refine ⟨?_, ?_, ?_⟩ <;> rintro rfl <;> simp [isDigitChar] at h

theorem hexVal_plain {c : Char} {n : Nat} (h : hexVal c = some n) :
    c ≠ '"' ∧ c ≠ '\\' := by
  constructor <;> rintro rfl <;> simp [hexVal] at h

theorem strBlock_nil_quote : StrBlock ['"'] := by
  intro d
  show scanStep ⟨d, true, false⟩ '"' = ⟨d, false, false⟩
  unfold scanStep
  simp

theorem strBlock_cons_plain {c : Char} {cs : Chars} (h1 : c ≠ '"')
    (h2 : c ≠ '\\') (h : StrBlock cs) : StrBlock (c :: cs) := by
  intro d
  show scanFold (scanStep ⟨d, true, false⟩ c) cs = ⟨d, false, false⟩
  have : scanStep ⟨d, true, false⟩ c = ⟨d, true, false⟩ := by
    unfold scanStep
    simp [h1, h2]
  rw [this]
  exact h d

theorem strBlock_cons_escape {e : Char} {cs : Chars} (h : StrBlock cs) :
    StrBlock ('\\' :: e :: cs) := by
  intro d
  show scanFold (scanStep (scanStep ⟨d, true, false⟩ '\\') e) cs =
    ⟨d, false, false⟩
  have h1 : scanStep ⟨d, true, false⟩ '\\' = ⟨d, true, true⟩ := by
    unfold scanStep
    simp
  have h2 : scanStep ⟨d, true, true⟩ e = ⟨d, true, false⟩ := by
    unfold scanStep
    simp
  rw [h1, h2]
  exact h d

theorem parseJString_scan :
    ∀ {s content rest : Chars}, parseJString s = some (content, rest) →
      ∃ c, s = c ++ rest ∧ StrBlock c := by
  intro s
  induction s using parseJString.induct with
  | case1 r =>
    intro content rest h
    simp only [parseJString, Option.some.injEq, Prod.mk.injEq] at h
    refine ⟨['"'], ?_, strBlock_nil_quote⟩
    rw [← h.2]
    rfl
  | case2 a b c d r na nb nc nd hd hc hb ha ih =>
    intro content rest h
    simp only [parseJString, ha, hb, hc, hd, Option.map_eq_some'] at h
    obtain ⟨⟨ct, rs⟩, hp, heq⟩ := h
    obtain ⟨cc, hcc, hblock⟩ := ih hp
    simp only [Prod.mk.injEq] at heq
    refine ⟨'\\' :: 'u' :: a :: b :: c :: d :: cc, ?_, ?_⟩
    · rw [← heq.2]
      simp [hcc]
    · exact strBlock_cons_escape
        (strBlock_cons_plain (hexVal_plain ha).1 (hexVal_plain ha).2
          (strBlock_cons_plain (hexVal_plain hb).1 (hexVal_plain hb).2
            (strBlock_cons_plain (hexVal_plain hc).1 (hexVal_plain hc).2
              (strBlock_cons_plain (hexVal_plain hd).1 (hexVal_plain hd).2
                hblock))))
  | case3 a b c d r hfail =>
    intro content rest h
    exfalso
    simp only [parseJString] at h
    match h1 : hexVal a, h2 : hexVal b, h3 : hexVal c, h4 : hexVal d with
    | some na, some nb, some nc, some nd => exact hfail na nb nc nd h1 h2 h3 h4
    | none, _, _, _ => exact Option.noConfusion h
    | some _, none, _, _ => exact Option.noConfusion h
    | some _, some _, none, _ => exact Option.noConfusion h
    | some _, some _, some _, none => exact Option.noConfusion h
  | case4 e r hnu c0 hesc ih =>
    intro content rest h
    simp only [parseJString, hesc, Option.map_eq_some'] at h
    obtain ⟨⟨ct, rs⟩, hp, heq⟩ := h
    obtain ⟨cc, hcc, hblock⟩ := ih hp
    simp only [Prod.mk.injEq] at heq
    refine ⟨'\\' :: e :: cc, ?_, strBlock_cons_escape hblock⟩
    rw [← heq.2]
    simp [hcc]
  | case5 e r hnu hesc =>
    intro content rest h
    exfalso
    simp only [parseJString, hesc] at h
    exact Option.noConfusion h
  | case6 c r hq hbu hbe hlt =>
    intro content rest h
    exfalso
    simp only [parseJString, if_pos hlt] at h
    exact Option.noConfusion h
  | case7 c r hq hbu hbe hge ih =>
    intro content rest h
    have hbs : c ≠ '\\' := by
      intro hcc
      subst hcc
      cases r with
      | nil => simp [parseJString] at h
      | cons e r1 => exact hbe e r1 rfl rfl
    simp only [parseJString, if_neg hge, Option.map_eq_some'] at h
    obtain ⟨⟨ct, rs⟩, hp, heq⟩ := h
    obtain ⟨cc, hcc, hblock⟩ := ih hp
    simp only [Prod.mk.injEq] at heq
    refine ⟨c :: cc, ?_,
      strBlock_cons_plain (fun hcq => hq hcq) hbs hblock⟩
    rw [← heq.2]
    simp [hcc]
  | case8 =>
    intro content rest h
    exfalso
    simp [parseJString] at h

theorem takeDigits_decompose (s : Chars) :
    s = (takeDigits s).1 ++ (takeDigits s).2 ∧
      ∀ c ∈ (takeDigits s).1, isDigitChar c = true := by
  unfold takeDigits
  exact ⟨(List.takeWhile_append_dropWhile (p := isDigitChar) (l := s)).symm,
    fun c hc => List.mem_takeWhile_imp hc⟩

theorem parseIntPart_decompose {s ip rest : Chars}
    (h : parseIntPart s = some (ip, rest)) :
    s = ip ++ rest ∧ ∀ c ∈ ip, isDigitChar c = true := by
  rw [parseIntPart.eq_def] at h
  split at h
  · simp only [Option.some.injEq, Prod.mk.injEq] at h
    obtain ⟨h1, h2⟩ := h
    subst h1 h2
    refine ⟨rfl, ?_⟩
    intro c hc
    simp at hc
    subst hc
    decide
  · rename_i c r hne
    split at h
    · rename_i hdig
      simp only [Option.some.injEq, Prod.mk.injEq] at h
      obtain ⟨h1, h2⟩ := h
      subst h1 h2
      obtain ⟨hdec, hdigits⟩ := takeDigits_decompose r
      constructor
      · rw [List.cons_append]
        rw [← hdec]
      · intro x hx
        rcases List.mem_cons.mp hx with rfl | hx2
        · exact hdig
        · exact hdigits x hx2
    · exact Option.noConfusion h
  · exact Option.noConfusion h

theorem parseFracPart_decompose (s : Chars) :
    s = (parseFracPart s).1 ++ (parseFracPart s).2 ∧
      ∀ c ∈ (parseFracPart s).1, c = '.' ∨ isDigitChar c = true := by
  rw [parseFracPart.eq_def]
  split
  · rename_i r
    dsimp only
    split_ifs with hnil
    · exact ⟨rfl, by intro c hc; simp at hc⟩
    · obtain ⟨hdec, hdigits⟩ := takeDigits_decompose r
      refine ⟨by rw [List.cons_append, ← hdec], ?_⟩
      intro x hx
      rcases List.mem_cons.mp hx with rfl | hx2
      · left; rfl
      · right; exact hdigits x hx2
  · exact ⟨rfl, by intro c hc; simp at hc⟩

theorem splitSign_decompose (r : Chars) :
    r = (splitSign r).1 ++ (splitSign r).2 ∧
      ∀ c ∈ (splitSign r).1, c = '+' ∨ c = '-' := by
  rw [splitSign.eq_def]
  split
  · rename_i s0 r'
    split_ifs with hs
    · refine ⟨rfl, ?_⟩
      intro x hx
      simp at hx
      subst hx
      exact hs
    · exact ⟨rfl, by intro x hx; simp at hx⟩
  · exact ⟨rfl, by intro x hx; simp at hx⟩

theorem parseExpPart_decompose (s : Chars) :
    s = (parseExpPart s).1 ++ (parseExpPart s).2 ∧
      ∀ c ∈ (parseExpPart s).1,
        c = 'e' ∨ c = 'E' ∨ c = '+' ∨ c = '-' ∨ isDigitChar c = true := by
  rw [parseExpPart.eq_def]
  split
  · rename_i c r
    dsimp only
    split_ifs with he hnil
    · exact ⟨rfl, by intro x hx; simp at hx⟩
    · obtain ⟨hs1, hs2⟩ := splitSign_decompose r
      obtain ⟨hq1, hq2⟩ := takeDigits_decompose (splitSign r).2
      refine ⟨?_, ?_⟩
      · show c :: r = (c :: ((splitSign r).1 ++ (takeDigits (splitSign r).2).1))
          ++ (takeDigits (splitSign r).2).2
        rw [List.cons_append]
        congr 1
        rw [List.append_assoc, ← hq1]
        exact hs1
      · intro x hx
        rcases List.mem_cons.mp hx with rfl | hx2
        · rcases he with rfl | rfl
          · left; rfl
          · right; left; rfl
        · rcases List.mem_append.mp hx2 with hx3 | hx3
          · rcases hs2 x hx3 with rfl | rfl
            · right; right; left; rfl
            · right; right; right; left; rfl
          · right; right; right; right; exact hq2 x hx3
    · exact ⟨rfl, by intro x hx; simp at hx⟩
  · exact ⟨rfl, by intro x hx; simp at hx⟩

theorem splitNeg_decompose (s : Chars) :
    s = (splitNeg s).1 ++ (splitNeg s).2 ∧
      ∀ c ∈ (splitNeg s).1, c = '-' := by
  rw [splitNeg.eq_def]
  split
  · exact ⟨rfl, by intro x hx; simp at hx; exact hx⟩
  · exact ⟨rfl, by intro x hx; simp at hx⟩

theorem numberChar_plain {c : Char}
    (h : c = '-' ∨ c = '.' ∨ c = '+' ∨ c = 'e' ∨ c = 'E' ∨
      isDigitChar c = true) : c ≠ '"' ∧ c ≠ '{' ∧ c ≠ '}' := by
  rcases h with rfl | rfl | rfl | rfl | rfl | hd
  · exact ⟨by decide, by decide, by decide⟩
  · exact ⟨by decide, by decide, by decide⟩
  · exact ⟨by decide, by decide, by decide⟩
  · exact ⟨by decide, by decide, by decide⟩
  · exact ⟨by decide, by decide, by decide⟩
  · exact digit_plain hd

theorem parseNumber_scan {s lex rest : Chars}
    (h : parseNumber s = some (lex, rest)) :
    s = lex ++ rest ∧ ScanNeutral lex := by
  rw [parseNumber.eq_def] at h
  split at h
  · exact absurd h (by simp)
  · rename_i ip s2 hip
    simp only [Option.some.injEq, Prod.mk.injEq] at h
    obtain ⟨h1, h2⟩ := h
    obtain ⟨hsn1, hsn2⟩ := splitNeg_decompose s
    obtain ⟨hip1, hip2⟩ := parseIntPart_decompose hip
    obtain ⟨hf1, hf2⟩ := parseFracPart_decompose s2
    obtain ⟨he1, he2⟩ := parseExpPart_decompose (parseFracPart s2).2
    constructor
    · rw [← h1, ← h2]
      rw [List.append_assoc, List.append_assoc, List.append_assoc]
      rw [← he1, ← hf1, ← hip1]
      exact hsn1
    · rw [← h1]
      apply scanNeutral_of_all
      intro x hx
      simp only [List.append_assoc, List.mem_append] at hx
      rcases hx with hx | hx | hx | hx
      · exact numberChar_plain (Or.inl (hsn2 x hx))
      · exact numberChar_plain (Or.inr (Or.inr (Or.inr (Or.inr
          (Or.inr (hip2 x hx))))))
      · rcases hf2 x hx with rfl | hd
        · exact numberChar_plain (Or.inr (Or.inl rfl))
        · exact numberChar_plain (Or.inr (Or.inr (Or.inr (Or.inr
            (Or.inr hd)))))
      · rcases he2 x hx with rfl | rfl | rfl | rfl | hd
        · exact numberChar_plain (Or.inr (Or.inr (Or.inr (Or.inl rfl))))
        · exact numberChar_plain (Or.inr (Or.inr (Or.inr (Or.inr
            (Or.inl rfl)))))
        · exact numberChar_plain (Or.inr (Or.inr (Or.inl rfl)))
        · exact numberChar_plain (Or.inl rfl)
        · exact numberChar_plain (Or.inr (Or.inr (Or.inr (Or.inr
            (Or.inr hd)))))

theorem isPrefixOf_decompose {pat s : Chars}
    (h : pat.isPrefixOf s = true) : s = pat ++ s.drop pat.length := by
  induction pat generalizing s with
  | nil => simp
  | cons p ps ih =>
    cases s with
    | nil => simp [List.isPrefixOf] at h
    | cons a t =>
      simp only [List.isPrefixOf, Bool.and_eq_true, beq_iff_eq] at h
      obtain ⟨h1, h2⟩ := h
      subst h1
      simp only [List.length_cons, List.drop_succ_cons, List.cons_append,
        List.cons.injEq, true_and]
      exact ih h2

theorem scanNeutral_strBlock {cs : Chars} (h : StrBlock cs) :
    ScanNeutral ('"' :: cs) := by
  intro d
  show scanFold (scanStep ⟨d, false, false⟩ '"') cs = _
  have hq : scanStep ⟨d, false, false⟩ '"' = ⟨d, true, false⟩ := by
    unfold scanStep
    simp
  rw [hq]
  exact h d

theorem scanNeutral_braces {cs : Chars} (h : ScanCloser cs) :
    ScanNeutral ('{' :: cs) := by
  intro d
  show scanFold (scanStep ⟨d, false, false⟩ '{') cs = _
  have hb : scanStep ⟨d, false, false⟩ '{' = ⟨d + 1, false, false⟩ := by
    unfold scanStep
    simp
  rw [hb]
  exact h d

theorem scanCloser_rbrace : ScanCloser ['}'] := by
  intro d
  show scanStep ⟨d + 1, false, false⟩ '}' = _
  unfold scanStep
  simp

theorem scanCloser_of_neutral_append {a b : Chars} (ha : ScanNeutral a)
    (hb : ScanCloser b) : ScanCloser (a ++ b) := by
  intro d
  rw [scanFold_append, ha (d + 1), hb d]

theorem parse_scan_balanced : ∀ fuel : Nat,
    (∀ s v rest, parseValue fuel s = some (v, rest) →
      ∃ c, s = c ++ rest ∧ ScanNeutral c) ∧
    (∀ s ms rest, parseMembers fuel s = some (ms, rest) →
      ∃ c, s = c ++ rest ∧ ScanCloser c) ∧
    (∀ s vs rest, parseElems fuel s = some (vs, rest) →
      ∃ c, s = c ++ rest ∧ ScanNeutral c) := by
  intro fuel
  induction fuel with
  | zero =>
    refine ⟨?_, ?_, ?_⟩ <;> intro s x rest h <;>
      simp [parseValue, parseMembers, parseElems] at h
  | succ n ih =>
    obtain ⟨ihv, ihm, ihe⟩ := ih
    refine ⟨?_, ?_, ?_⟩
    · intro s v rest h
      simp only [parseValue] at h
      split at h
      · exact Option.noConfusion h
      · rename_i x r hsw
        split at h
        · rename_i r2 hsw2
          simp only [Option.some.injEq, Prod.mk.injEq] at h
          obtain ⟨hv, hr⟩ := h
          subst hr
          refine ⟨s.takeWhile isJsonWs ++ '{' :: (r.takeWhile isJsonWs ++ ['}']), ?_, ?_⟩
          · conv_lhs => rw [skipWs_decompose s, hsw, skipWs_decompose r, hsw2]
            simp [List.append_assoc]
          · exact scanNeutral_append (scanNeutral_takeWhile_ws s)
              (scanNeutral_braces (scanCloser_of_neutral_append
                (scanNeutral_takeWhile_ws r) scanCloser_rbrace))
        · rw [Option.map_eq_some'] at h
          obtain ⟨⟨ms, r3⟩, hp, heq⟩ := h
          simp only [Prod.mk.injEq] at heq
          obtain ⟨hv, hr⟩ := heq
          subst hr
          obtain ⟨cm, hdec, hclose⟩ := ihm _ _ _ hp
          refine ⟨s.takeWhile isJsonWs ++ '{' :: (r.takeWhile isJsonWs ++ cm), ?_, ?_⟩
          · conv_lhs => rw [skipWs_decompose s, hsw, skipWs_decompose r, hdec]
            simp [List.append_assoc]
          · exact scanNeutral_append (scanNeutral_takeWhile_ws s)
              (scanNeutral_braces (scanCloser_of_neutral_append
                (scanNeutral_takeWhile_ws r) hclose))
      · rename_i x r hsw
        split at h
        · rename_i r2 hsw2
          simp only [Option.some.injEq, Prod.mk.injEq] at h
          obtain ⟨hv, hr⟩ := h
          subst hr
          refine ⟨s.takeWhile isJsonWs ++ '[' :: (r.takeWhile isJsonWs ++ [']']), ?_, ?_⟩
          · conv_lhs => rw [skipWs_decompose s, hsw, skipWs_decompose r, hsw2]
            simp [List.append_assoc]
          · refine scanNeutral_append (scanNeutral_takeWhile_ws s) ?_
            refine scanNeutral_cons (by decide) (by decide) (by decide) ?_
            exact scanNeutral_append (scanNeutral_takeWhile_ws r)
              (scanNeutral_of_all (by decide))
        · rw [Option.map_eq_some'] at h
          obtain ⟨⟨vs, r3⟩, hp, heq⟩ := h
          simp only [Prod.mk.injEq] at heq
          obtain ⟨hv, hr⟩ := heq
          subst hr
          obtain ⟨ce, hdec, hneut⟩ := ihe _ _ _ hp
          refine ⟨s.takeWhile isJsonWs ++ '[' :: ce, ?_, ?_⟩
          · conv_lhs => rw [skipWs_decompose s, hsw, hdec]
            simp [List.append_assoc]
          · exact scanNeutral_append (scanNeutral_takeWhile_ws s)
              (scanNeutral_cons (by decide) (by decide) (by decide) hneut)
      · rename_i x r hsw
        rw [Option.map_eq_some'] at h
        obtain ⟨⟨ct, r3⟩, hp, heq⟩ := h
        simp only [Prod.mk.injEq] at heq
        obtain ⟨hv, hr⟩ := heq
        subst hr
        obtain ⟨cc, hdec, hblock⟩ := parseJString_scan hp
        refine ⟨s.takeWhile isJsonWs ++ '"' :: cc, ?_, ?_⟩
        · conv_lhs => rw [skipWs_decompose s, hsw, hdec]
          simp [List.append_assoc]
        · exact scanNeutral_append (scanNeutral_takeWhile_ws s)
            (scanNeutral_strBlock hblock)
      · rename_i x r hsw
        split_ifs at h with hpre
        simp only [Option.some.injEq, Prod.mk.injEq] at h
        obtain ⟨hv, hr⟩ := h
        subst hr
        refine ⟨s.takeWhile isJsonWs ++ 't' :: "rue".toList, ?_, ?_⟩
        · conv_lhs => rw [skipWs_decompose s, hsw, isPrefixOf_decompose hpre]
          simp [List.append_assoc]
        · exact scanNeutral_append (scanNeutral_takeWhile_ws s)
            (scanNeutral_of_all (by decide))
      · rename_i x r hsw
        split_ifs at h with hpre
        simp only [Option.some.injEq, Prod.mk.injEq] at h
        obtain ⟨hv, hr⟩ := h
        subst hr
        refine ⟨s.takeWhile isJsonWs ++ 'f' :: "alse".toList, ?_, ?_⟩
        · conv_lhs => rw [skipWs_decompose s, hsw, isPrefixOf_decompose hpre]
          simp [List.append_assoc]
        · exact scanNeutral_append (scanNeutral_takeWhile_ws s)
            (scanNeutral_of_all (by decide))
      · rename_i x r hsw
        split_ifs at h with hpre
        simp only [Option.some.injEq, Prod.mk.injEq] at h
        obtain ⟨hv, hr⟩ := h
        subst hr
        refine ⟨s.takeWhile isJsonWs ++ 'n' :: "ull".toList, ?_, ?_⟩
        · conv_lhs => rw [skipWs_decompose s, hsw, isPrefixOf_decompose hpre]
          simp [List.append_assoc]
        · exact scanNeutral_append (scanNeutral_takeWhile_ws s)
            (scanNeutral_of_all (by decide))
      · rename_i hsw
        split_ifs at h with hnum
        rw [Option.map_eq_some'] at h
        obtain ⟨⟨lex, r3⟩, hp, heq⟩ := h
        simp only [Prod.mk.injEq] at heq
        obtain ⟨hv, hr⟩ := heq
        subst hr
        obtain ⟨hdec, hneut⟩ := parseNumber_scan hp
        refine ⟨s.takeWhile isJsonWs ++ lex, ?_, ?_⟩
        · conv_lhs => rw [skipWs_decompose s, hsw, hdec]
          simp [List.append_assoc]
        · exact scanNeutral_append (scanNeutral_takeWhile_ws s) hneut
    · intro s ms rest h
      simp only [parseMembers] at h
      split at h
      · rename_i r
        split at h
        · exact Option.noConfusion h
        · rename_i key r1 hkey
          split at h
          · rename_i r2 hsw1
            split at h
            · exact Option.noConfusion h
            · rename_i v0 r3 hval
              split at h
              · rename_i r4 hsw3
                rw [Option.map_eq_some'] at h
                obtain ⟨⟨ms2, rest2⟩, hp, heq⟩ := h
                simp only [Prod.mk.injEq] at heq
                obtain ⟨hv, hr⟩ := heq
                subst hr
                obtain ⟨ck, hck, hckb⟩ := parseJString_scan hkey
                obtain ⟨cv, hcv, hcvn⟩ := ihv _ _ _ hval
                obtain ⟨cm, hcm, hcmc⟩ := ihm _ _ _ hp
                refine ⟨('"' :: (ck ++ (r1.takeWhile isJsonWs ++ (':' :: (cv ++
                  (r3.takeWhile isJsonWs ++ [','])))))) ++
                  (r4.takeWhile isJsonWs ++ cm), ?_, ?_⟩
                · conv_lhs => rw [hck, skipWs_decompose r1, hsw1, hcv,
                    skipWs_decompose r3, hsw3, skipWs_decompose r4, hcm]
                  simp [List.append_assoc]
                · refine scanCloser_of_neutral_append ?_
                    (scanCloser_of_neutral_append
                      (scanNeutral_takeWhile_ws r4) hcmc)
                  exact scanNeutral_append (scanNeutral_strBlock hckb)
                    (scanNeutral_append (scanNeutral_takeWhile_ws r1)
                      (scanNeutral_cons (by decide) (by decide) (by decide)
                        (scanNeutral_append hcvn
                          (scanNeutral_append (scanNeutral_takeWhile_ws r3)
                            (scanNeutral_of_all (by decide))))))
              · rename_i r4 hsw3
                simp only [Option.some.injEq, Prod.mk.injEq] at h
                obtain ⟨hv, hr⟩ := h
                subst hr
                obtain ⟨ck, hck, hckb⟩ := parseJString_scan hkey
                obtain ⟨cv, hcv, hcvn⟩ := ihv _ _ _ hval
                refine ⟨('"' :: (ck ++ (r1.takeWhile isJsonWs ++ (':' :: (cv ++
                  r3.takeWhile isJsonWs))))) ++ ['}'], ?_, ?_⟩
                · conv_lhs => rw [hck, skipWs_decompose r1, hsw1, hcv,
                    skipWs_decompose r3, hsw3]
                  simp [List.append_assoc]
                · refine scanCloser_of_neutral_append ?_ scanCloser_rbrace
                  exact scanNeutral_append (scanNeutral_strBlock hckb)
                    (scanNeutral_append (scanNeutral_takeWhile_ws r1)
                      (scanNeutral_cons (by decide) (by decide) (by decide)
                        (scanNeutral_append hcvn (scanNeutral_takeWhile_ws r3))))
              · exact Option.noConfusion h
          · exact Option.noConfusion h
      · exact Option.noConfusion h
    · intro s vs rest h
      simp only [parseElems] at h
      split at h
      · exact Option.noConfusion h
      · rename_i v0 r hval
        split at h
        · rename_i r2 hsw
          rw [Option.map_eq_some'] at h
          obtain ⟨⟨vs2, rest2⟩, hp, heq⟩ := h
          simp only [Prod.mk.injEq] at heq
          obtain ⟨hv, hr⟩ := heq
          subst hr
          obtain ⟨cv, hcv, hcvn⟩ := ihv _ _ _ hval
          obtain ⟨ce, hce, hcen⟩ := ihe _ _ _ hp
          refine ⟨cv ++ (r.takeWhile isJsonWs ++ ',' :: ce), ?_, ?_⟩
          · conv_lhs => rw [hcv, skipWs_decompose r, hsw, hce]
            simp [List.append_assoc]
          · exact scanNeutral_append hcvn
              (scanNeutral_append (scanNeutral_takeWhile_ws r)
                (scanNeutral_cons (by decide) (by decide) (by decide) hcen))
        · rename_i r2 hsw
          simp only [Option.some.injEq, Prod.mk.injEq] at h
          obtain ⟨hv, hr⟩ := h
          subst hr
          obtain ⟨cv, hcv, hcvn⟩ := ihv _ _ _ hval
          refine ⟨cv ++ (r.takeWhile isJsonWs ++ [']']), ?_, ?_⟩
          · conv_lhs => rw [hcv, skipWs_decompose r, hsw]
            simp [List.append_assoc]
          · exact scanNeutral_append hcvn
              (scanNeutral_append (scanNeutral_takeWhile_ws r)
                (scanNeutral_of_all (by decide)))
        · exact Option.noConfusion h

theorem jsonParse_neutral {s : Chars} {v : JValue}
    (h : jsonParse s = some v) : ScanNeutral s := by
  unfold jsonParse at h
  split at h
  · rename_i v0 rest hp
    split_ifs at h with hws
    obtain ⟨c, hdec, hneut⟩ := (parse_scan_balanced (2 * s.length + 2)).1 _ _ _ hp
    have hrest : ScanNeutral rest := by
      apply scanNeutral_of_all
      intro ch hch
      apply jsonWs_plain
      have := List.dropWhile_eq_nil_iff.mp hws
      exact this ch hch
    rw [hdec]
    exact scanNeutral_append hneut hrest
  · exact Option.noConfusion h

theorem jsonParse_none_of_unclosed {cs : Chars} (h : Unclosed cs) :
    jsonParse cs = none := by
  obtain ⟨hne, hdepth⟩ := h
  cases hp : jsonParse cs with
  | none => rfl
  | some v =>
    exfalso
    have hneut := jsonParse_neutral hp
    have h0 : scanFold scanInit cs = scanInit := hneut 0
    have hlen : 0 < cs.length := List.length_pos.mpr hne
    have := hdepth (cs.length - 1) (by omega)
    rw [show cs.length - 1 + 1 = cs.length from by omega,
      List.take_length, h0] at this
    simp [scanInit] at this

theorem extractStep_scan (st : ExtractSt) (c : Char) :
    (extractStep st c).scan = scanStep st.scan c := by
  unfold extractStep
  dsimp only
  split
  · rfl
  · split
    · cases st.cur <;> rfl
    · rfl

theorem extract_fold_acc : ∀ (cs p : Chars) (st : ExtractSt),
    st.scan = scanFold scanInit p →
    (∀ k, k < cs.length →
      1 ≤ (scanFold scanInit (p ++ cs.take (k + 1))).depth) →
    (cs.foldl extractStep st).acc = st.acc := by
  intro cs
  induction cs with
  | nil => intro p st _ _; rfl
  | cons c rest ih =>
    intro p st hscan hdepth
    have hstep : (extractStep st c).acc = st.acc := by
      unfold extractStep
      dsimp only
      split
      · rfl
      · split
        · rename_i hn1 hcond
          exfalso
          obtain ⟨_, hc, _, hz⟩ := hcond
          have h0 := hdepth 0 (by simp)
          rw [List.take_succ_cons, List.take_zero] at h0
          have hsf : scanFold scanInit (p ++ [c]) =
              scanStep (scanFold scanInit p) c := by
            rw [scanFold_append]; rfl
          rw [hsf, ← hscan] at h0
          omega
        · rfl
    have hnext : (extractStep st c).scan = scanFold scanInit (p ++ [c]) := by
      rw [extractStep_scan, hscan, scanFold_append]; rfl
    calc (List.foldl extractStep st (c :: rest)).acc
        = (List.foldl extractStep (extractStep st c) rest).acc := rfl
      _ = (extractStep st c).acc := by
          apply ih (p ++ [c]) _ hnext
          intro k hk
          have := hdepth (k + 1) (by simp; omega)
          rw [List.take_succ_cons] at this
          rw [List.append_assoc]
          exact this
      _ = st.acc := hstep

theorem extract_empty_of_unclosed {cs : Chars} (h : Unclosed cs) :
    extractJsonObjectCandidates cs = [] := by
  unfold extractJsonObjectCandidates
  have := extract_fold_acc cs [] ⟨scanInit, none, []⟩ rfl ?_
  · exact this
  · intro k hk
    simpa using h.2 k hk

theorem validate_none_of_plan_none (flds : List (Chars × JValue))
    (key : Chars)
    (hkey : key = ("white_plan".toList) ∨ key = ("black_plan".toList))
    (h : asPlanBullets (lookupField flds key) = none) :
    validateCandidate (.obj flds) = none := by
  rcases hkey with hk | hk <;> subst hk <;>
    simp only [validateCandidate, h] <;> split <;> simp_all

/-- Concrete candidate fields missing the white plan. -/
def cWpFlds : List (Chars × JValue) :=
  [("position_plan_title".toList, .str "x".toList)]

/-- Concrete candidate fields missing the black plan's second bullet. -/
def cBpFlds : List (Chars × JValue) :=
  [("black_plan".toList, .str "only one bullet".toList)]

/-- C7, confirmed.  The commentary extractor never raises and rejects
underspecified plans: (1) on a truncated JSON object -- a text whose
string-aware brace depth stays positive after every nonempty prefix,
before as well as after candidate normalization and comma repair --
`parseCommentaryStructuredFromText` returns `none`; (2) a parsed
candidate whose `white_plan` does not resolve to exactly two non-empty
bullet strings is rejected by `validateCandidate`; (3) likewise for
`black_plan`. -/
theorem c7_extractor_no_throw :
    (∀ raw : Chars, Unclosed (sanitizeCommentaryText raw) →
      Unclosed (normalizeCandidate (sanitizeCommentaryText raw)) →
      Unclosed (repairCandidate
        (normalizeCandidate (sanitizeCommentaryText raw))) →
      parseCommentaryStructuredFromText raw = none) ∧
    (∀ flds : List (Chars × JValue),
      asPlanBullets (lookupField flds ("white_plan".toList)) = none →
      validateCandidate (.obj flds) = none) ∧
    (∀ flds : List (Chars × JValue),
      asPlanBullets (lookupField flds ("black_plan".toList)) = none →
      validateCandidate (.obj flds) = none) := by
  refine ⟨?_, ?_, ?_⟩
  · intro raw h1 h2 h3
    have e1 : extractJsonObjectCandidates (sanitizeCommentaryText raw) = [] :=
      extract_empty_of_unclosed h1
    have e2 : jsonParse (normalizeCandidate (sanitizeCommentaryText raw)) =
        none := jsonParse_none_of_unclosed h2
    have e3 : jsonParse (repairCandidate
        (normalizeCandidate (sanitizeCommentaryText raw))) = none :=
      jsonParse_none_of_unclosed h3
    simp [parseCommentaryStructuredFromText, buildCandidates, tryCandidate,
      e1, e2, e3, h1.1, h2.1]
  · intro flds h
    exact validate_none_of_plan_none flds _ (Or.inl rfl) h
  · intro flds h
    exact validate_none_of_plan_none flds _ (Or.inr rfl) h

/-- Witness for C7: the truncated object `cTrunc` extracts to `none`,
and candidates missing a plan or its second bullet are rejected. -/
theorem c7_extractor_no_throw_witness :
    parseCommentaryStructuredFromText cTrunc = none ∧
    validateCandidate (.obj cWpFlds) = none ∧
    validateCandidate (.obj cBpFlds) = none :=
  ⟨c7_extractor_no_throw.1 cTrunc (by decide) (by decide) (by decide),
   c7_extractor_no_throw.2.1 cWpFlds rfl,
   c7_extractor_no_throw.2.2 cBpFlds (by decide)⟩

theorem splitLines_ne_nil (a : Chars) : splitLines a ≠ [] := by
  rw [splitLines.eq_def]
  split
  · simp
  · simp
  · split <;> simp

theorem splitLines_cons_ne (c : Char) (rest : Chars) (hc : c ≠ '\n') :
    splitLines (c :: rest) =
      match splitLines rest with
      | [] => [[c]]
      | l :: ls => (c :: l) :: ls := by
  rw [splitLines.eq_def]
  split
  · simp_all
  · simp_all
  · rename_i heq
    rw [List.cons.injEq] at heq
    obtain ⟨h1, h2⟩ := heq
    subst h1; subst h2; rfl

theorem splitLines_append_nl (a b : Chars) :
    splitLines (a ++ '\n' :: b) = splitLines a ++ splitLines b := by
  induction a with
  | nil => simp [splitLines]
  | cons c rest ih =>
    by_cases hc : c = '\n'
    · subst hc
      simp [splitLines, ih]
    · rw [List.cons_append, splitLines_cons_ne c _ hc,
        splitLines_cons_ne c rest hc, ih]
      cases hs : splitLines rest with
      | nil => exact absurd hs (splitLines_ne_nil rest)
      | cons l ls => simp

theorem splitLines_no_nl (a : Chars) (h : '\n' ∉ a) : splitLines a = [a] := by
  induction a with
  | nil => rfl
  | cons c rest ih =>
    have hc : c ≠ '\n' := fun he => h (he ▸ List.mem_cons_self c rest)
    rw [splitLines_cons_ne c rest hc, ih (fun hm => h (List.mem_cons_of_mem c hm))]

theorem joinNl_splitLines (a : Chars) : joinNl (splitLines a) = a := by
  induction a with
  | nil => rfl
  | cons c rest ih =>
    by_cases hc : c = '\n'
    · subst hc
      show joinNl ([] :: splitLines rest) = _
      cases hs : splitLines rest with
      | nil => exact absurd hs (splitLines_ne_nil rest)
      | cons l ls =>
        rw [hs] at ih
        show [] ++ '\n' :: joinNl (l :: ls) = _
        rw [ih]
        rfl
    · rw [splitLines_cons_ne c rest hc]
      cases hs : splitLines rest with
      | nil => exact absurd hs (splitLines_ne_nil rest)
      | cons l ls =>
        rw [hs] at ih
        cases ls with
        | nil => show c :: l = _ ; rw [show joinNl [l] = l from rfl] at ih; rw [ih]
        | cons m ms =>
          show (c :: l) ++ '\n' :: joinNl (m :: ms) = _
          rw [show joinNl (l :: m :: ms) = l ++ '\n' :: joinNl (m :: ms) from rfl] at ih
          rw [List.cons_append, ih]

theorem trimChars_eq_self {cs : Chars}
    (h1 : ∀ c, cs.head? = some c → isJsWs c = false)
    (h2 : ∀ c, cs.getLast? = some c → isJsWs c = false) :
    trimChars cs = cs := by
  cases cs with
  | nil => rfl
  | cons c t =>
    unfold trimChars
    rw [List.dropWhile_cons, if_neg (by simp [h1 c rfl])]
    cases hrev : (c :: t).reverse with
    | nil => exact absurd hrev (by simp)
    | cons d u =>
      have hd : (c :: t).getLast? = some d := by
        rw [← List.head?_reverse, hrev]; rfl
      rw [List.dropWhile_cons, if_neg (by simp [h2 d hd]), ← hrev,
        List.reverse_reverse]

theorem trimChars_head {cs : Chars} {c : Char} {r : Chars}
    (h : cs.dropWhile isJsWs = c :: r) (hc : isJsWs c = false) :
    ∃ t, trimChars cs = c :: t := by
  unfold trimChars
  rw [h]
  rw [show (c :: r).reverse = r.reverse ++ [c] by simp]
  rw [List.dropWhile_append]
  split
  · refine ⟨[], ?_⟩
    rw [List.dropWhile_cons, if_neg (by simp [hc])]
    rfl
  · refine ⟨(r.reverse.dropWhile isJsWs).reverse, ?_⟩
    simp

theorem isPrefixOf_self_append (pat x : Chars) :
    pat.isPrefixOf (pat ++ x) = true := by
  induction pat with
  | nil => simp [List.isPrefixOf]
  | cons p ps ih => simp [List.isPrefixOf, ih]

theorem containsSeq_mono {pat1 pat2 s : Chars} (ext : Chars)
    (hp : pat2 = pat1 ++ ext)
    (h : containsSeq pat1 s = false) : containsSeq pat2 s = false := by
  induction s with
  | nil =>
    simp [containsSeq] at h ⊢
    subst hp
    intro habs
    exact h (List.append_eq_nil.mp habs).1
  | cons c rest ih =>
    simp [containsSeq] at h ⊢
    obtain ⟨hpre, hrest⟩ := h
    refine ⟨?_, ih hrest⟩
    rw [Bool.eq_false_iff]
    intro habs
    have hdec := isPrefixOf_decompose habs
    have h2 : List.isPrefixOf pat1 (c :: rest) = true := by
      rw [hdec, hp, List.append_assoc]
      exact isPrefixOf_self_append pat1 _
    rw [h2] at hpre
    exact Bool.noConfusion hpre

theorem replaceAllDelF_id {pat s : Chars} (fuel : Nat)
    (h : containsSeq pat s = false) : replaceAllDelF fuel pat s = s := by
  induction fuel generalizing s with
  | zero => rfl
  | succ n ih =>
    cases s with
    | nil => rfl
    | cons c rest =>
      simp [containsSeq] at h
      obtain ⟨hpre, hrest⟩ := h
      rw [replaceAllDelF]
      rw [if_neg (by simp [hpre])]
      rw [ih hrest]

theorem replaceAllDel_id {pat s : Chars}
    (h : containsSeq pat s = false) : replaceAllDel pat s = s :=
  replaceAllDelF_id (s.length + 1) h

theorem isJsWs_eq_isJsonWs : isJsWs = isJsonWs := by
  funext c
  unfold isJsWs isJsonWs
  cases decide (c = ' ') <;> cases decide (c = '\t') <;>
    cases decide (c = '\r') <;> cases decide (c = '\n') <;> rfl

theorem parse_obj_shape {s : Chars} {flds : List (Chars × JValue)}
    (h : jsonParse s = some (.obj flds)) :
    ∃ r, skipWs s = '{' :: r := by
  unfold jsonParse at h
  split at h
  · rename_i v0 rest hp
    split_ifs at h
    rw [Option.some.injEq] at h
    subst h
    rw [show 2 * s.length + 2 = (2 * s.length + 1) + 1 from rfl] at hp
    simp only [parseValue] at hp
    split at hp
    · exact Option.noConfusion hp
    · rename_i x r hsw
      exact ⟨r, hsw⟩
    · rename_i x r hsw
      split at hp
      · simp at hp
      · rw [Option.map_eq_some'] at hp
        obtain ⟨p, _, heq⟩ := hp
        simp at heq
    · rename_i x r hsw
      rw [Option.map_eq_some'] at hp
      obtain ⟨p, _, heq⟩ := hp
      simp at heq
    · rename_i x r hsw
      split_ifs at hp
      simp at hp
    · rename_i x r hsw
      split_ifs at hp
      simp at hp
    · rename_i x r hsw
      split_ifs at hp
      simp at hp
    · rename_i hsw
      split_ifs at hp
      rw [Option.map_eq_some'] at hp
      obtain ⟨p, _, heq⟩ := hp
      simp at heq
  · exact Option.noConfusion h

theorem backticks_toList : "```".toList = ['`', '`', '`'] := rfl

theorem sanitize_of_obj {J : Chars} (hJ : IsObjParse J = true)
    (ht : containsSeq ("```".toList) J = false) :
    sanitizeCommentaryText J = trimChars J := by
  obtain ⟨flds, hp⟩ : ∃ flds, jsonParse J = some (.obj flds) := by
    unfold IsObjParse at hJ
    split at hJ
    · rename_i flds heq
      exact ⟨flds, heq⟩
    · exact Bool.noConfusion hJ
  obtain ⟨r, hr⟩ := parse_obj_shape hp
  have hdw : J.dropWhile isJsWs = '{' :: r := by
    rw [isJsWs_eq_isJsonWs]; exact hr
  obtain ⟨t, htr⟩ := trimChars_head hdw (by decide)
  have htj : containsSeq ("```json".toList) J = false :=
    containsSeq_mono ("json".toList) (by decide) ht
  unfold sanitizeCommentaryText
  rw [htr]
  rw [if_neg (by simp)]
  rw [if_pos ?_]
  · rw [replaceAllDel_id htj, replaceAllDel_id ht]
    exact htr
  · rw [backticks_toList]
    simp [List.isPrefixOf]

theorem sanitize_fenced {tag J : Chars} (htag : '\n' ∉ tag) :
    sanitizeCommentaryText (fenceWrap tag J) = trimChars J := by
  have hcat : fenceWrap tag J =
      (("```".toList ++ tag ++ '\n' :: (J ++ ['\n', '`', '`'])) ++ ['`']) := by
    simp [fenceWrap, backticks_toList]
  have hhead : (fenceWrap tag J).head? = some '`' := by
    rw [fenceWrap, backticks_toList]; rfl
  have hlast : (fenceWrap tag J).getLast? = some '`' := by
    rw [hcat, List.getLast?_concat]
  have htrim : trimChars (fenceWrap tag J) = fenceWrap tag J := by
    apply trimChars_eq_self
    · intro c hc
      rw [hhead] at hc
      cases hc
      decide
    · intro c hc
      rw [hlast] at hc
      cases hc
      decide
  have hlines : splitLines (fenceWrap tag J) =
      ("```".toList ++ tag) :: (splitLines J ++ ["```".toList]) := by
    have h1 : fenceWrap tag J =
        ("```".toList ++ tag) ++ '\n' :: (J ++ '\n' :: "```".toList) := by
      simp [fenceWrap]
    rw [h1, splitLines_append_nl, splitLines_append_nl]
    rw [splitLines_no_nl ("```".toList ++ tag) ?_, splitLines_no_nl "```".toList (by decide)]
    · rfl
    · intro hm
      rcases List.mem_append.mp hm with hm | hm
      · rw [backticks_toList] at hm
        simp at hm
      · exact htag hm
  unfold sanitizeCommentaryText
  dsimp only
  rw [htrim, hlines]
  rw [if_neg (by rw [hcat]; simp)]
  rw [if_neg (by rw [backticks_toList]; simp [List.isPrefixOf])]
  rw [if_pos ?_]
  · rw [show (("```".toList ++ tag) :: (splitLines J ++ ["```".toList])).drop 1
        = splitLines J ++ ["```".toList] from rfl]
    rw [List.dropLast_concat, joinNl_splitLines]
  · constructor
    · simp
      have := List.length_pos.mpr (splitLines_ne_nil J)
      omega
    · rw [show (("```".toList ++ tag) :: (splitLines J ++ ["```".toList])).getLastD []
          = ((("```".toList ++ tag) :: splitLines J) ++ ["```".toList]).getLastD [] from by simp,
        List.getLastD_concat]
      decide

theorem parseCommentary_congr {a b : Chars}
    (h : sanitizeCommentaryText a = sanitizeCommentaryText b) :
    parseCommentaryStructuredFromText a = parseCommentaryStructuredFromText b := by
  simp only [parseCommentaryStructuredFromText, h]

/-- C8, corrected.  For a text that `JSON.parse` accepts as a JSON
object and that contains no triple-backtick sequence, extracting from
the text wrapped in a closed triple-backtick fence (with a newline-free
tag on the opening line) returns the same structured record as
extracting from the unwrapped text. -/
theorem c8_fence_invariance (tag J : Chars) (hJ : IsObjParse J = true)
    (ht : containsSeq ("```".toList) J = false) (htag : '\n' ∉ tag) :
    parseCommentaryStructuredFromText (fenceWrap tag J) =
      parseCommentaryStructuredFromText J :=
  parseCommentary_congr ((sanitize_fenced htag).trans (sanitize_of_obj hJ ht).symm)

/-- Witness for C8: a complete commentary object, fenced with a `json`
tag, extracts identically to its unfenced form. -/
theorem c8_fence_invariance_witness :
    IsObjParse cJson = true ∧
    containsSeq ("```".toList) cJson = false ∧
    '\n' ∉ "json".toList ∧
    parseCommentaryStructuredFromText (fenceWrap ("json".toList) cJson) =
      parseCommentaryStructuredFromText cJson :=
  ⟨by decide, by decide, by decide,
   c8_fence_invariance ("json".toList) cJson (by decide) (by decide) (by decide)⟩

/-- Counterexample to C8 as stated: a valid JSON object carrying a
triple backtick inside a string value extracts differently once fenced,
because the unfenced path strips the backticks positionally from inside
the string value while the fenced path unwraps cleanly. -/
theorem c8_counterexample :
    parseCommentaryStructuredFromText (fenceWrap ("json".toList) cJsonTicks) ≠
      parseCommentaryStructuredFromText cJsonTicks := by
  decide

end Mainline
